import Mathlib

/-!
Verification of the TestChimp Playwright reporter core logic.

The definitions below are shallow embeddings of the TypeScript sources
`src/utils.ts`, `src/testchimp-reporter.ts`, `src/api-client.ts` and
`src/types.ts`.  JavaScript strings are modelled by Lean `String`,
objects by structures, `Map` by association lists, wall-clock time
(`Date.now()`) by an explicit `Nat` parameter, the file system
(`fs.readFileSync` plus base64 encoding) by a function
`String → Option String`, and the process environment by a function
`String → Option String`.
-/

namespace TestChimp

/-! ## Types (`src/types.ts`) -/

/-- Embeds the `StepExecutionStatus` enum of `src/types.ts`. -/
inductive StepExecutionStatus where
  | UNKNOWN_STEP_EXECUTION_STATUS
  | SUCCESS_STEP_EXECUTION
  | FAILURE_STEP_EXECUTION
deriving DecidableEq

/-- Embeds the `SmartTestExecutionStatus` enum of `src/types.ts`. -/
inductive SmartTestExecutionStatus where
  | UNKNOWN_SMART_TEST_EXECUTION_STATUS
  | SMART_TEST_EXECUTION_QUEUED
  | SMART_TEST_EXECUTION_IN_PROGRESS
  | SMART_TEST_EXECUTION_COMPLETED
  | SMART_TEST_EXECUTION_FAILED
  | SMART_TEST_EXECUTION_COMPLETED_WITH_REPAIRS
deriving DecidableEq

/-- Embeds the `SmartTestExecutionStep` interface of `src/types.ts`;
optional TypeScript fields become `Option`s. -/
structure SmartTestExecutionStep where
  stepId : Option String
  description : String
  code : Option String
  screenshotBase64 : Option String
  status : StepExecutionStatus
  error : Option String
  wasRepaired : Option Bool
deriving DecidableEq

/-- Embeds the `RetryInfo` interface of `src/testchimp-reporter.ts`. -/
structure RetryInfo where
  maxRetries : Nat
  currentAttempt : Nat
deriving DecidableEq

/-! ## `src/utils.ts`: step ids and environment variables -/

/-- Embeds `generateStepId` from `src/utils.ts`.  The TypeScript body is
`` `step_${stepNumber}_${Date.now()}` ``; the wall clock is passed
explicitly as `now`. -/
def generateStepId (stepNumber : Nat) (now : Nat) : String :=
  "step_" ++ toString stepNumber ++ "_" ++ toString now

/-- Embeds `getEnvVar` from `src/utils.ts`
(`return process.env[name] || defaultValue`): a set-but-empty variable is
falsy in JavaScript and therefore falls back to the default. -/
def getEnvVar (env : String → Option String) (name : String)
    (defaultValue : Option String) : Option String :=
  match env name with
  | some v => if v = "" then defaultValue else some v
  | none => defaultValue

/-- JavaScript `x || d` for an optional string `x` and a plain string
default `d`, as used in `onBegin` of `src/testchimp-reporter.ts`. -/
def orElseStr (o : Option String) (d : String) : String :=
  match o with
  | some s => if s = "" then d else s
  | none => d

/-- JavaScript truthiness of an optional string (`undefined` and the
empty string are falsy). -/
def optTruthy (o : Option String) : Bool :=
  match o with
  | some s => s ≠ ""
  | none => false

/-! ## `src/testchimp-reporter.ts`: status mapping, step capture,
final-attempt decision -/

/-- Embeds `mapStatus` of `src/testchimp-reporter.ts`: the `switch` maps
`'passed'` to COMPLETED, `'failed'` and `'timedOut'` to FAILED, and
`'skipped'`, `'interrupted'` and the default case to UNKNOWN. -/
def mapStatus (playwrightStatus : String) : SmartTestExecutionStatus :=
  if playwrightStatus = "passed" then .SMART_TEST_EXECUTION_COMPLETED
  else if playwrightStatus = "failed" ∨ playwrightStatus = "timedOut" then
    .SMART_TEST_EXECUTION_FAILED
  else .UNKNOWN_SMART_TEST_EXECUTION_STATUS

/-- Embeds the final-attempt expression of `onTestEnd`
(`testPassed || !retryInfo || result.retry >= retryInfo.maxRetries`). -/
def isFinalAttempt (retryInfo : Option RetryInfo) (retry : Nat)
    (testPassed : Bool) : Bool :=
  testPassed || retryInfo.isNone ||
    (match retryInfo with
     | some info => decide (retry ≥ info.maxRetries)
     | none => true)

/-- The step data `onStepEnd` receives from Playwright: title, category
and the optional `step.error?.message`. -/
structure TestStepDescriptor where
  title : String
  category : String
  error : Option String
deriving DecidableEq

/-- Embeds the step-capture part of `onStepEnd` of
`src/testchimp-reporter.ts` acting on one execution's `steps` list: the
category filter, step numbering, id generation and step construction. -/
def onStepEndSteps (steps : List SmartTestExecutionStep)
    (step : TestStepDescriptor) (now : Nat) : List SmartTestExecutionStep :=
  if step.category ≠ "test.step" ∧ step.category ≠ "expect" ∧
      step.category ≠ "pw:api" then
    steps
  else
    let stepNumber := steps.length + 1
    let stepId := generateStepId stepNumber now
    let executionStep : SmartTestExecutionStep :=
      { stepId := some stepId
        description := step.title
        code := none
        screenshotBase64 := none
        status := if step.error.isSome then .FAILURE_STEP_EXECUTION
                  else .SUCCESS_STEP_EXECUTION
        error := step.error
        wasRepaired := some false }
    steps ++ [executionStep]

/-- A step category passes the filter of `onStepEnd`. -/
def retainedCategory (category : String) : Bool :=
  category = "test.step" || category = "expect" || category = "pw:api"

/-- One attempt's step events in order, each paired with the value of
`Date.now()` at the moment `onStepEnd` ran. -/
def processSteps (events : List (TestStepDescriptor × Nat)) :
    List SmartTestExecutionStep :=
  events.foldl (fun steps e => onStepEndSteps steps e.1 e.2) []

/-- The sub-sequence of events whose step descriptors pass the category
filter. -/
def retainedEvents (events : List (TestStepDescriptor × Nat)) :
    List (TestStepDescriptor × Nat) :=
  events.filter (fun e => retainedCategory e.1.category)

/-- The step record `onStepEnd` builds for the `n`-th retained step of an
attempt observed at time `now`. -/
def capturedStep (d : TestStepDescriptor) (n : Nat) (now : Nat) :
    SmartTestExecutionStep :=
  { stepId := some (generateStepId n now)
    description := d.title
    code := none
    screenshotBase64 := none
    status := if d.error.isSome then .FAILURE_STEP_EXECUTION
              else .SUCCESS_STEP_EXECUTION
    error := d.error
    wasRepaired := some false }

/-- The steps appended by a run of step events when `n` steps have
already been captured for the attempt. -/
def buildFrom (n : Nat) : List (TestStepDescriptor × Nat) →
    List SmartTestExecutionStep
  | [] => []
  | (d, t) :: rest =>
    if retainedCategory d.category then
      capturedStep d (n + 1) t :: buildFrom (n + 1) rest
    else buildFrom n rest

/-- Embeds the `TestChimpReporterOptions` record after the constructor of
`TestChimpReporter` has applied its defaults: every field is present. -/
structure TestChimpReporterOptions where
  apiKey : String
  apiUrl : String
  projectId : String
  testsFolder : String
  release : String
  environment : String
  reportOnlyFinalAttempt : Bool
  captureScreenshots : Bool
  verbose : Bool
deriving DecidableEq

/-- The api key as resolved in `onBegin`
(`getEnvVar('TESTCHIMP_API_KEY', this.options.apiKey)`). -/
def resolvedApiKey (env : String → Option String)
    (options : TestChimpReporterOptions) : Option String :=
  getEnvVar env "TESTCHIMP_API_KEY" (some options.apiKey)

/-- The project id as resolved in `onBegin`
(`getEnvVar('TESTCHIMP_PROJECT_ID', this.options.projectId)`). -/
def resolvedProjectId (env : String → Option String)
    (options : TestChimpReporterOptions) : Option String :=
  getEnvVar env "TESTCHIMP_PROJECT_ID" (some options.projectId)

/-- The api url as resolved in `onBegin`, with its hard-coded default. -/
def resolvedApiUrl (env : String → Option String)
    (options : TestChimpReporterOptions) : String :=
  orElseStr (getEnvVar env "TESTCHIMP_API_URL" (some options.apiUrl))
    "https://featureservice.testchimp.io"

/-- The tests folder as resolved in `onBegin`, with its default
`'tests'`. -/
def resolvedTestsFolder (env : String → Option String)
    (options : TestChimpReporterOptions) : String :=
  orElseStr (getEnvVar env "TESTCHIMP_TESTS_FOLDER" (some options.testsFolder))
    "tests"

/-- A sample environment for concrete evaluation: only
`TESTCHIMP_API_KEY` is set, and it is set to the empty string. -/
def sampleEnv : String → Option String :=
  fun name => if name = "TESTCHIMP_API_KEY" then some "" else none

/-- Sample options for concrete evaluation. -/
def sampleOptions : TestChimpReporterOptions :=
  { apiKey := "configured-key"
    apiUrl := ""
    projectId := "proj-1"
    testsFolder := ""
    release := ""
    environment := ""
    reportOnlyFinalAttempt := true
    captureScreenshots := true
    verbose := false }

/-- A sample retained step descriptor. -/
def sampleStepDescriptor : TestStepDescriptor :=
  { title := "click button", category := "test.step", error := none }

/-- A sample dropped (hook/fixture) step descriptor. -/
def sampleHookDescriptor : TestStepDescriptor :=
  { title := "beforeEach hook", category := "hook", error := none }

/-- A failing assertion step descriptor. -/
def sampleFailedExpect : TestStepDescriptor :=
  { title := "expect visible", category := "expect", error := some "not visible" }

/-- A small concrete event sequence: retained, dropped, retained. -/
def sampleEvents : List (TestStepDescriptor × Nat) :=
  [(sampleStepDescriptor, 5), (sampleHookDescriptor, 7), (sampleFailedExpect, 9)]

/-- A concrete failing step without a screenshot. -/
def sampleFailStep : SmartTestExecutionStep :=
  { stepId := some "step_1_100"
    description := "fill form"
    code := none
    screenshotBase64 := none
    status := .FAILURE_STEP_EXECUTION
    error := some "element not found"
    wasRepaired := some false }

/-- A concrete passing step. -/
def samplePassStep : SmartTestExecutionStep :=
  { stepId := some "step_2_101"
    description := "open page"
    code := none
    screenshotBase64 := none
    status := .SUCCESS_STEP_EXECUTION
    error := none
    wasRepaired := some false }

/-- A second concrete failing step without a screenshot. -/
def sampleFailStep2 : SmartTestExecutionStep :=
  { stepId := some "step_3_102"
    description := "submit"
    code := none
    screenshotBase64 := none
    status := .FAILURE_STEP_EXECUTION
    error := some "timeout"
    wasRepaired := some false }

/-- A concrete model of reading a screenshot file as base64. -/
def sampleReadFile : String → Option String :=
  fun p => some ("base64:" ++ p)

/-! ## `src/testchimp-reporter.ts`: screenshot attachment -/

/-- Prefix test on character lists (JavaScript `String.startsWith`). -/
def isPrefixChars : List Char → List Char → Bool
  | [], _ => true
  | _ :: _, [] => false
  | a :: as, b :: bs => a = b && isPrefixChars as bs

/-- JavaScript `s.startsWith(pre)`. -/
def strStartsWith (s pre : String) : Bool :=
  isPrefixChars pre.data s.data

/-- JavaScript `s.endsWith(suf)`. -/
def strEndsWith (s suf : String) : Bool :=
  isPrefixChars suf.data.reverse s.data.reverse

/-- A Playwright result attachment as used by
`attachScreenshotsToFailingSteps`: only `contentType` and `path` are
consulted. -/
structure Attachment where
  name : String
  contentType : Option String
  path : Option String
deriving DecidableEq

/-- The attachment filter of `attachScreenshotsToFailingSteps`
(`a.contentType?.startsWith('image/') && a.path`): image-typed and with a
truthy file reference. -/
def isImageAttachment (a : Attachment) : Bool :=
  (match a.contentType with
   | some ct => strStartsWith ct "image/"
   | none => false) && optTruthy a.path

/-- The step filter of `attachScreenshotsToFailingSteps`
(`s.status === FAILURE_STEP_EXECUTION && !s.screenshotBase64`). -/
def isFailingWithoutScreenshot (s : SmartTestExecutionStep) : Bool :=
  decide (s.status = StepExecutionStatus.FAILURE_STEP_EXECUTION) &&
    !(optTruthy s.screenshotBase64)

/-- The body of one loop iteration of `attachScreenshotsToFailingSteps`:
re-check `screenshot.path`, read the file (`readFile` returns the base64
string on success, `none` when `fs.readFileSync` throws), and set
`step.screenshotBase64`; a read failure leaves the step unchanged. -/
def applyScreenshot (s : SmartTestExecutionStep) (shot : Attachment)
    (readFile : String → Option String) : SmartTestExecutionStep :=
  match shot.path with
  | some p =>
    if p ≠ "" then
      match readFile p with
      | some base64String => { s with screenshotBase64 := some base64String }
      | none => s
    else s
  | none => s

/-- The indexed loop of `attachScreenshotsToFailingSteps`
(`for i < min(screenshots.length, failingSteps.length)`), expressed as a
walk over the steps list that consumes one screenshot per
failing-without-screenshot step and stops assigning when the screenshots
run out. -/
def attachLoop (readFile : String → Option String) :
    List SmartTestExecutionStep → List Attachment →
    List SmartTestExecutionStep
  | [], _ => []
  | s :: rest, shots =>
    if isFailingWithoutScreenshot s then
      match shots with
      | [] => s :: rest
      | shot :: shots' =>
        applyScreenshot s shot readFile :: attachLoop readFile rest shots'
    else s :: attachLoop readFile rest shots

/-- Embeds `attachScreenshotsToFailingSteps` of
`src/testchimp-reporter.ts`, including its two early returns. -/
def attachScreenshotsToFailingSteps (steps : List SmartTestExecutionStep)
    (attachments : List Attachment) (readFile : String → Option String) :
    List SmartTestExecutionStep :=
  let screenshots := attachments.filter isImageAttachment
  if screenshots.length = 0 then steps
  else
    let failingSteps := steps.filter isFailingWithoutScreenshot
    if failingSteps.length = 0 then steps
    else attachLoop readFile steps screenshots

/-- The positions of `result` at which `steps` has a selected
(failing-without-screenshot) step, in order. -/
def selectByMask : List SmartTestExecutionStep →
    List SmartTestExecutionStep → List SmartTestExecutionStep
  | s :: ss, t :: ts =>
    if isFailingWithoutScreenshot s then t :: selectByMask ss ts
    else selectByMask ss ts
  | _, _ => []

/-- Pairing written from the specification's words: walk the selected
steps and the selected screenshots in original order, one screenshot per
step, stopping when either list is exhausted. -/
def pairScreenshots (readFile : String → Option String) :
    List SmartTestExecutionStep → List Attachment →
    List SmartTestExecutionStep
  | [], _ => []
  | ss, [] => ss
  | s :: ss, shot :: shots =>
    applyScreenshot s shot readFile :: pairScreenshots readFile ss shots

/-- A concrete image attachment with a file reference. -/
def sampleShot : Attachment :=
  { name := "screenshot", contentType := some "image/png",
    path := some "/tmp/s1.png" }

/-- A concrete non-image attachment. -/
def sampleTrace : Attachment :=
  { name := "trace", contentType := some "application/zip",
    path := some "/tmp/trace.zip" }

/-- Concrete steps: failing, passing, failing. -/
def sampleSteps : List SmartTestExecutionStep :=
  [sampleFailStep, samplePassStep, sampleFailStep2]

/-- Concrete attachments: a non-image and one image. -/
def sampleAttachments : List Attachment :=
  [sampleTrace, sampleShot]

/-! ## `src/utils.ts`: `derivePaths` and the Node `path` (posix) model

`derivePaths` delegates to Node's `path` module.  The functions below
model the posix implementations of `split`-by-separator, `join`,
`isAbsolute`, `resolve`, `relative`, `normalize`, `dirname` and
`basename` over the character list of a `String`.  `process.cwd()` is an
explicit `cwd` parameter. -/

/-- JavaScript `s.split(c)` on character lists: `""` splits to `[""]`,
and consecutive separators produce empty groups. -/
def splitChars (c : Char) : List Char → List (List Char)
  | [] => [[]]
  | ch :: rest =>
    if ch = c then [] :: splitChars c rest
    else
      match splitChars c rest with
      | g :: gs => (ch :: g) :: gs
      | [] => [[ch]]

/-- JavaScript `parts.join(c)` on character lists. -/
def joinChars (c : Char) : List (List Char) → List Char
  | [] => []
  | [g] => g
  | g :: g' :: gs => g ++ c :: joinChars c (g' :: gs)

/-- JavaScript `s.split(c)` producing strings. -/
def strSplitOnChar (c : Char) (s : String) : List String :=
  (splitChars c s.data).map (fun g => String.mk g)

/-- JavaScript `parts.join(c)` producing a string. -/
def strJoinChar (c : Char) (parts : List String) : String :=
  String.mk (joinChars c (parts.map String.data))

/-- Node `path.posix.isAbsolute`: nonempty and starting with `/`. -/
def pathIsAbsolute (p : String) : Bool :=
  strStartsWith p "/"

/-- One iteration of Node's `normalizeStringPosix` loop, with the result
stack kept in reverse order: empty and `.` segments are dropped; `..`
pops a non-`..` top, and otherwise is kept only when `allowAboveRoot`
(relative paths) and dropped for absolute paths. -/
def normStep (allowAboveRoot : Bool) (acc : List String) (seg : String) :
    List String :=
  if seg = "" ∨ seg = "." then acc
  else if seg = ".." then
    match acc with
    | top :: accTail =>
      if top = ".." then (if allowAboveRoot then ".." :: acc else acc)
      else accTail
    | [] => if allowAboveRoot then [".."] else []
  else seg :: acc

/-- The segment loop of Node's `normalizeStringPosix`. -/
def normLoop (allowAboveRoot : Bool) (acc : List String)
    (segs : List String) : List String :=
  segs.foldl (normStep allowAboveRoot) acc

/-- Node's `normalizeStringPosix` at the segment level. -/
def normSegs (allowAboveRoot : Bool) (segs : List String) : List String :=
  (normLoop allowAboveRoot [] segs).reverse

/-- Node `path.posix.resolve` for a single argument (plus the implicit
`process.cwd()`): join with the cwd when relative, then normalize
without allowing `..` above the root. -/
def resolveOne (cwd p : String) : String :=
  let joined := if strStartsWith p "/" then p else cwd ++ "/" ++ p
  let isAbs := strStartsWith joined "/"
  let body := strJoinChar '/' (normSegs (!isAbs) (strSplitOnChar '/' joined))
  if isAbs then "/" ++ body
  else if body = "" then "." else body

/-- Node `path.posix.resolve(a, b)` (two arguments, implicit cwd):
arguments are joined right to left until an absolute one is found, empty
arguments are skipped, and the result is normalized. -/
def pathResolve2 (cwd a b : String) : String :=
  if strStartsWith b "/" then resolveOne cwd b
  else if b = "" then resolveOne cwd a
  else if a = "" then resolveOne cwd b
  else resolveOne cwd (a ++ "/" ++ b)

/-- Length of the common prefix of two segment lists. -/
def commonPrefixLen : List String → List String → Nat
  | a :: as, b :: bs => if a = b then commonPrefixLen as bs + 1 else 0
  | _, _ => 0

/-- Node `path.posix.relative(fromPath, toPath)`: resolve both, return
`""` when equal, else climb with `..` for the non-common part of the
source and descend into the non-common part of the target. -/
def pathRelative (cwd fromPath toPath : String) : String :=
  let f := resolveOne cwd fromPath
  let t := resolveOne cwd toPath
  if f = t then ""
  else
    let fSegs := (strSplitOnChar '/' f).filter (fun s => s ≠ "")
    let tSegs := (strSplitOnChar '/' t).filter (fun s => s ≠ "")
    let k := commonPrefixLen fSegs tSegs
    strJoinChar '/' (List.replicate (fSegs.length - k) ".." ++ tSegs.drop k)

/-- Node `path.posix.normalize`. -/
def pathNormalize (p : String) : String :=
  if p = "" then "."
  else
    let isAbs := strStartsWith p "/"
    let trailingSep := strEndsWith p "/"
    let body := strJoinChar '/' (normSegs (!isAbs) (strSplitOnChar '/' p))
    let body := if body = "" ∧ isAbs = false then "." else body
    let body := if body ≠ "" ∧ trailingSep = true then body ++ "/" else body
    if isAbs = true then "/" ++ body else body

/-- Node `path.posix.dirname`: scan from the end, skip trailing
separators, skip the base name, and cut before the separator found
there; `hasRoot` quirks (`'/'`, `'//'`) as in Node. -/
def pathDirname (p : String) : String :=
  if p = "" then "."
  else
    let hasRoot := strStartsWith p "/"
    let rcs := p.data.reverse
    let afterTrail := rcs.dropWhile (fun ch => ch = '/')
    let afterBase := afterTrail.dropWhile (fun ch => ch ≠ '/')
    if afterBase.length ≤ 1 then (if hasRoot = true then "/" else ".")
    else if hasRoot = true ∧ afterBase.length - 1 = 1 then "//"
    else String.mk (p.data.take (afterBase.length - 1))

/-- Node `path.posix.basename` (no extension argument): the characters
after the last separator, ignoring trailing separators. -/
def pathBasename (p : String) : String :=
  let rcs := p.data.reverse
  let afterTrail := rcs.dropWhile (fun ch => ch = '/')
  String.mk ((afterTrail.takeWhile (fun ch => ch ≠ '/')).reverse)

/-- A Playwright suite's location (only the file is consulted). -/
structure SuiteLocation where
  file : String
deriving DecidableEq

/-- A Playwright suite as consulted by the `while` loop of
`derivePaths`: title and optional location. -/
structure SuiteNode where
  title : String
  location : Option SuiteLocation
deriving DecidableEq

/-- Embeds the `DerivedPaths` interface of `src/utils.ts`. -/
structure DerivedPaths where
  folderPath : String
  fileName : String
  suitePath : List String
  testName : String
deriving DecidableEq

/-- The suite-path `while` loop of `derivePaths`: walk the parent chain
(innermost first), stop at a suite without a location, skip suites from
other files, and collect non-file-level titles outermost-first. -/
def buildSuitePath (testFile : String) : List SuiteNode → List String
  | [] => []
  | s :: rest =>
    match s.location with
    | none => []
    | some loc =>
      if loc.file ≠ testFile then buildSuitePath testFile rest
      else if s.title ≠ "" ∧ ¬(strEndsWith s.title ".spec.ts" = true) ∧
          ¬(strEndsWith s.title ".test.ts" = true) ∧
          ¬(strEndsWith s.title ".spec.js" = true) ∧
          ¬(strEndsWith s.title ".test.js" = true) then
        buildSuitePath testFile rest ++ [s.title]
      else buildSuitePath testFile rest

/-- Embeds `derivePaths` of `src/utils.ts`.  `locationFile` is
`test.location.file`, `title` is `test.title`, `parents` the chain
`test.parent, test.parent.parent, …` (innermost first), and `cwd` the
process working directory used implicitly by `path.resolve` and
`path.relative`. -/
def derivePaths (cwd locationFile title : String) (parents : List SuiteNode)
    (testsFolder rootDir : String) : DerivedPaths :=
  let basePath := if testsFolder ≠ "" then pathResolve2 cwd rootDir testsFolder
                  else rootDir
  let filePath := locationFile
  let isRelativePath := !(pathIsAbsolute filePath)
  let absoluteFilePath := if isRelativePath = true then
      pathResolve2 cwd rootDir filePath
    else filePath
  let relativePath := pathRelative cwd basePath absoluteFilePath
  let relativePath := pathNormalize relativePath
  let relativePath :=
    if strStartsWith relativePath ".." = true then
      let parts := strSplitOnChar '/' relativePath
      let filteredParts := parts.filter (fun q => q ≠ ".." ∧ q ≠ ".")
      strJoinChar '/' filteredParts
    else relativePath
  let folderPath := pathDirname relativePath
  let fileName := pathBasename relativePath
  { folderPath := if folderPath = "." then "" else folderPath
    fileName := fileName
    suitePath := buildSuitePath locationFile parents
    testName := title }

/-- The middle of `derivePaths`: relative path from the base, normalized,
with leading parent references stripped.  `derivePaths` is this followed
by `dirname`/`basename`. -/
def relAfterStrip (cwd basePath absoluteFilePath : String) : String :=
  let relativePath := pathNormalize (pathRelative cwd basePath absoluteFilePath)
  if strStartsWith relativePath ".." = true then
    strJoinChar '/' ((strSplitOnChar '/' relativePath).filter
      (fun q => q ≠ ".." ∧ q ≠ "."))
  else relativePath

/-- A path segment as produced by resolution: nonempty, not a dot
segment, and free of separators. -/
def cleanSeg (s : String) : Prop :=
  s ≠ "" ∧ s ≠ "." ∧ s ≠ ".." ∧ '/' ∉ s.data

/-- All segments clean. -/
def cleanSegs (l : List String) : Prop :=
  ∀ s ∈ l, cleanSeg s

/-! ## Remaining report types (`src/types.ts`) -/

/-- Embeds the `ScenarioCoverageStatus` enum of `src/types.ts`. -/
inductive ScenarioCoverageStatus where
  | UNKNOWN_SCENARIO_COVERAGE_STATUS
  | SUCCESSFUL_SCENARIO_COVERAGE
  | FAILED_SCENARIO_COVERAGE
  | NOT_ATTEMPTED_SCENARIO_COVERAGE
deriving DecidableEq

/-- Embeds the `ScenarioCoverageResult` interface of `src/types.ts`. -/
structure ScenarioCoverageResult where
  scenarioTitle : String
  scenarioId : Option String
  status : ScenarioCoverageStatus
deriving DecidableEq

/-- Embeds the `SmartTestExecutionJobDetail` interface of
`src/types.ts`. -/
structure SmartTestExecutionJobDetail where
  testName : String
  steps : List SmartTestExecutionStep
  status : SmartTestExecutionStatus
  error : Option String
  updatedScript : Option String
  scenarioCoverageResults : List ScenarioCoverageResult
deriving DecidableEq

/-- Embeds the `SmartTestExecutionReport` interface of
`src/types.ts`. -/
structure SmartTestExecutionReport where
  folderPath : String
  fileName : String
  suitePath : List String
  testName : String
  release : Option String
  environment : Option String
  batchInvocationId : Option String
  jobDetail : SmartTestExecutionJobDetail
  startedAtMillis : Option Nat
  completedAtMillis : Option Nat
deriving DecidableEq

/-! ## The reporter state machine (`src/testchimp-reporter.ts`)

JavaScript `Map`s are modelled as association lists with `Map`'s
set/replace, lookup and delete semantics. -/

/-- JavaScript `Map.get`. -/
def mapLookup {V : Type} (m : List (String × V)) (k : String) : Option V :=
  (m.find? (fun p => p.1 = k)).map (fun p => p.2)

/-- JavaScript `Map.set`: replace in place when the key exists, else
append. -/
def mapSet {V : Type} (m : List (String × V)) (k : String) (v : V) :
    List (String × V) :=
  if (m.find? (fun p => p.1 = k)).isSome then
    m.map (fun p => if p.1 = k then (k, v) else p)
  else m ++ [(k, v)]

/-- JavaScript `Map.delete`. -/
def mapDelete {V : Type} (m : List (String × V)) (k : String) :
    List (String × V) :=
  m.filter (fun p => ¬(p.1 = k))

/-- Embeds the `TestExecutionState` interface of
`src/testchimp-reporter.ts`; the stored `testCase` reference is
represented by its id. -/
structure TestExecutionState where
  testId : String
  steps : List SmartTestExecutionStep
  startedAt : Nat
  attemptNumber : Nat
deriving DecidableEq

/-- The mutable fields of `TestChimpReporter`; `apiClient` is modelled by
the flag `hasApiClient`. -/
structure ReporterState where
  isEnabled : Bool
  hasApiClient : Bool
  batchInvocationId : String
  testsFolder : String
  rootDir : String
  options : TestChimpReporterOptions
  testExecutions : List (String × TestExecutionState)
  testRetryInfo : List (String × RetryInfo)
deriving DecidableEq

/-- A Playwright `TestCase` as consulted by the reporter. -/
structure TestCaseInfo where
  id : String
  title : String
  retries : Nat
  locationFile : String
  parents : List SuiteNode
deriving DecidableEq

/-- A Playwright `Suite` tree: tests plus child suites. -/
inductive SuiteTree where
  | node (tests : List TestCaseInfo) (suites : List SuiteTree)

/-- The per-test part of `scanTestRetries`. -/
def scanTests (acc : List (String × RetryInfo)) :
    List TestCaseInfo → List (String × RetryInfo)
  | [] => acc
  | t :: ts =>
    scanTests (mapSet acc t.id { maxRetries := t.retries, currentAttempt := 0 }) ts

mutual

/-- Embeds `scanTestRetries` of `src/testchimp-reporter.ts`: record every
test's configured retry count, recursing into child suites. -/
def scanSuite (acc : List (String × RetryInfo)) : SuiteTree →
    List (String × RetryInfo)
  | .node tests suites => scanSuiteList (scanTests acc tests) suites

/-- Folds `scanSuite` over the child suites. -/
def scanSuiteList (acc : List (String × RetryInfo)) : List SuiteTree →
    List (String × RetryInfo)
  | [] => acc
  | s :: ss => scanSuiteList (scanSuite acc s) ss

end

/-- Embeds `getTestKey` (`` `${test.id}_attempt_${retry}` ``). -/
def getTestKey (testId : String) (retry : Nat) : String :=
  testId ++ "_attempt_" ++ toString retry

/-- Embeds `onBegin` of `src/testchimp-reporter.ts`: resolve the
configuration (environment variables take precedence, empty values fall
back), disable on a missing credential pair, otherwise create the api
client and scan the suite tree for retry configuration.  The resolved
api url only parameterizes the transport client and is not part of the
tracked state. -/
def onBegin (env : String → Option String)
    (options : TestChimpReporterOptions) (rootDir : String)
    (suite : SuiteTree) (batchId : String) : ReporterState :=
  let apiKey := getEnvVar env "TESTCHIMP_API_KEY" (some options.apiKey)
  let projectId := getEnvVar env "TESTCHIMP_PROJECT_ID" (some options.projectId)
  let testsFolder :=
    orElseStr (getEnvVar env "TESTCHIMP_TESTS_FOLDER" (some options.testsFolder))
      "tests"
  let options := { options with
    release := orElseStr (getEnvVar env "TESTCHIMP_RELEASE"
      (some options.release)) ""
    environment := orElseStr (getEnvVar env "TESTCHIMP_ENV"
      (some options.environment)) "" }
  if optTruthy apiKey = false ∨ optTruthy projectId = false then
    { isEnabled := false, hasApiClient := false, batchInvocationId := batchId,
      testsFolder := testsFolder, rootDir := rootDir, options := options,
      testExecutions := [], testRetryInfo := [] }
  else
    { isEnabled := true, hasApiClient := true, batchInvocationId := batchId,
      testsFolder := testsFolder, rootDir := rootDir, options := options,
      testExecutions := [], testRetryInfo := scanSuite [] suite }

/-- Embeds `onTestBegin`: create a fresh execution state for the attempt
key and update the retry tracking's `currentAttempt`. -/
def onTestBegin (st : ReporterState) (testId : String) (retry : Nat)
    (now : Nat) : ReporterState :=
  if st.isEnabled = false then st
  else
    let testKey := getTestKey testId retry
    let newExecution : TestExecutionState :=
      { testId := testId, steps := [], startedAt := now,
        attemptNumber := retry + 1 }
    let st1 :=
      { st with testExecutions := mapSet st.testExecutions testKey newExecution }
    match mapLookup st1.testRetryInfo testId with
    | some retryInfo =>
      let newInfo : RetryInfo := { retryInfo with currentAttempt := retry }
      { st1 with testRetryInfo := mapSet st1.testRetryInfo testId newInfo }
    | none => st1

/-- Embeds the full `onStepEnd` handler: no-op when disabled or when the
attempt is unknown, otherwise apply the step-capture logic to the
attempt's step list. -/
def onStepEnd (st : ReporterState) (testId : String) (retry : Nat)
    (step : TestStepDescriptor) (now : Nat) : ReporterState :=
  if st.isEnabled = false then st
  else
    let testKey := getTestKey testId retry
    match mapLookup st.testExecutions testKey with
    | none => st
    | some execution =>
      let newExecution : TestExecutionState :=
        { execution with steps := onStepEndSteps execution.steps step now }
      { st with testExecutions := mapSet st.testExecutions testKey newExecution }

/-- The data `onTestEnd` receives from Playwright. -/
structure TestEndInput where
  testId : String
  title : String
  locationFile : String
  parents : List SuiteNode
  retry : Nat
  status : String
  errorMessage : Option String
  attachments : List Attachment
deriving DecidableEq

/-- Embeds `buildReport` of `src/testchimp-reporter.ts`. -/
def buildReport (st : ReporterState) (input : TestEndInput)
    (execution : TestExecutionState) (cwd : String)
    (readFile : String → Option String) (now : Nat) :
    SmartTestExecutionReport :=
  let paths := derivePaths cwd input.locationFile input.title input.parents
    st.testsFolder st.rootDir
  let status := mapStatus input.status
  let steps := if st.options.captureScreenshots then
      attachScreenshotsToFailingSteps execution.steps input.attachments readFile
    else execution.steps
  let jobDetail : SmartTestExecutionJobDetail :=
    { testName := paths.testName, steps := steps, status := status,
      error := input.errorMessage, updatedScript := none,
      scenarioCoverageResults := [] }
  { folderPath := paths.folderPath
    fileName := paths.fileName
    suitePath := paths.suitePath
    testName := paths.testName
    release := if st.options.release = "" then none else some st.options.release
    environment := if st.options.environment = "" then none
      else some st.options.environment
    batchInvocationId := some st.batchInvocationId
    jobDetail := jobDetail
    startedAtMillis := some execution.startedAt
    completedAtMillis := some now }

set_option linter.unusedVariables false in
/-- Embeds `onTestEnd`: skip when disabled, when the api client is
missing, or when the attempt is unknown; delete and skip a non-final
retry under the final-attempt-only policy; otherwise build the report,
attempt the transmission (`sendOk` says whether it succeeds — a failure
is only logged), and delete the execution state.  The second component is
the transmitted report, `none` when no transmission was attempted. -/
def onTestEnd (st : ReporterState) (input : TestEndInput) (cwd : String)
    (readFile : String → Option String) (sendOk : Bool) (now : Nat) :
    ReporterState × Option SmartTestExecutionReport :=
  if st.isEnabled = false then (st, none)
  else if st.hasApiClient = false then (st, none)
  else
    let testKey := getTestKey input.testId input.retry
    match mapLookup st.testExecutions testKey with
    | none => (st, none)
    | some execution =>
      let retryInfo := mapLookup st.testRetryInfo input.testId
      let testPassed := decide (input.status = "passed")
      let finalAttempt := isFinalAttempt retryInfo input.retry testPassed
      if st.options.reportOnlyFinalAttempt = true ∧ finalAttempt = false then
        ({ st with testExecutions := mapDelete st.testExecutions testKey },
          none)
      else
        let report := buildReport st input execution cwd readFile now
        ({ st with testExecutions := mapDelete st.testExecutions testKey },
          some report)

/-- One lifecycle event as delivered by the host runner. -/
inductive LifecycleEvent where
  | testBegin (testId : String) (retry : Nat) (now : Nat)
  | stepEnd (testId : String) (retry : Nat) (step : TestStepDescriptor)
      (now : Nat)
  | testEnd (input : TestEndInput) (sendOk : Bool) (now : Nat)

/-- Dispatch one lifecycle event to its handler; the optional report is
the transmission it attempted. -/
def applyEvent (cwd : String) (readFile : String → Option String)
    (st : ReporterState) :
    LifecycleEvent → ReporterState × Option SmartTestExecutionReport
  | .testBegin testId retry now => (onTestBegin st testId retry now, none)
  | .stepEnd testId retry step now => (onStepEnd st testId retry step now, none)
  | .testEnd input sendOk now => onTestEnd st input cwd readFile sendOk now

/-- Run a sequence of lifecycle events, collecting every attempted
transmission. -/
def runEvents (cwd : String) (readFile : String → Option String) :
    ReporterState → List LifecycleEvent →
    ReporterState × List SmartTestExecutionReport
  | st, [] => (st, [])
  | st, e :: rest =>
    let next := applyEvent cwd readFile st e
    let tail := runEvents cwd readFile next.1 rest
    (tail.1, (match next.2 with | some r => [r] | none => []) ++ tail.2)

/-- A concrete execution state holding one captured failing step. -/
def sampleExecutionState : TestExecutionState :=
  { testId := "t1", steps := [sampleFailStep], startedAt := 50,
    attemptNumber := 1 }

/-- A concrete enabled reporter state tracking one attempt. -/
def sampleEnabledState : ReporterState :=
  { isEnabled := true, hasApiClient := true, batchInvocationId := "batch-1",
    testsFolder := "tests", rootDir := "/proj", options := sampleOptions,
    testExecutions := [(getTestKey "t1" 0, sampleExecutionState)],
    testRetryInfo := [("t1", { maxRetries := 2, currentAttempt := 0 })] }

/-- A concrete attempt-end input for the tracked attempt. -/
def sampleTestEndInput : TestEndInput :=
  { testId := "t1", title := "test one",
    locationFile := "/proj/tests/a.spec.ts", parents := [], retry := 0,
    status := "failed", errorMessage := some "boom",
    attachments := sampleAttachments }

/-- An environment with no TestChimp variables set. -/
def sampleEmptyEnv : String → Option String := fun _ => none

/-- Options with no api key configured. -/
def sampleNoKeyOptions : TestChimpReporterOptions :=
  { sampleOptions with apiKey := "" }

/-- A one-test suite tree. -/
def sampleSuite : SuiteTree :=
  .node [{ id := "t1", title := "test one", retries := 2,
           locationFile := "/proj/tests/a.spec.ts", parents := [] }] []

/-- A concrete lifecycle-event sequence: begin, one step, end. -/
def sampleLifecycle : List LifecycleEvent :=
  [.testBegin "t1" 0 1, .stepEnd "t1" 0 sampleStepDescriptor 2,
   .testEnd sampleTestEndInput true 3]

/-! ## `src/api-client.ts`: recursive key-case conversion

`toSnakeCase` and `toCamelCase` act on arbitrary JSON-like JavaScript
values; the regex replacements are modelled character by character
(`[A-Z]`, `[a-z]` and `toLowerCase`/`toUpperCase` on basic latin letters
coincide with `Char.isUpper`, `Char.isLower`, `Char.toLower` and
`Char.toUpper`). -/

/-- A JSON-like JavaScript value: primitives, arrays, and objects as
ordered key-value lists (`Object.entries` order). -/
inductive Json where
  | null
  | bool (b : Bool)
  | num (n : Int)
  | str (s : String)
  | arr (elems : List Json)
  | obj (fields : List (String × Json))

/-- `key.replace(/[A-Z]/g, letter => '_' + letter.toLowerCase())`,
character by character. -/
def snakeChars : List Char → List Char
  | [] => []
  | c :: rest =>
    if c.isUpper then '_' :: c.toLower :: snakeChars rest
    else c :: snakeChars rest

/-- The snake-case key conversion of `toSnakeCase`. -/
def snakeKey (k : String) : String :=
  String.mk (snakeChars k.data)

/-- `key.replace(/_([a-z])/g, (_, letter) => letter.toUpperCase())`: the
regex scans left to right without overlap, consuming `_x` pairs. -/
def camelChars : List Char → List Char
  | [] => []
  | c :: rest =>
    if c = '_' then
      match rest with
      | d :: rest' =>
        if d.isLower then d.toUpper :: camelChars rest'
        else '_' :: camelChars (d :: rest')
      | [] => ['_']
    else c :: camelChars rest
termination_by cs => cs.length
decreasing_by
  all_goals simp_wf
  all_goals omega

/-- The camel-case key conversion of `toCamelCase`. -/
def camelKey (k : String) : String :=
  String.mk (camelChars k.data)

mutual

/-- Embeds `toSnakeCase` of `src/api-client.ts`: recursively convert all
object keys to snake_case. -/
def toSnakeCase : Json → Json
  | .null => .null
  | .bool b => .bool b
  | .num n => .num n
  | .str s => .str s
  | .arr elems => .arr (toSnakeCaseList elems)
  | .obj fields => .obj (toSnakeCaseFields fields)

/-- `obj.map(toSnakeCase)` over an array. -/
def toSnakeCaseList : List Json → List Json
  | [] => []
  | v :: rest => toSnakeCase v :: toSnakeCaseList rest

/-- The `Object.entries` loop of `toSnakeCase`. -/
def toSnakeCaseFields : List (String × Json) → List (String × Json)
  | [] => []
  | (k, v) :: rest => (snakeKey k, toSnakeCase v) :: toSnakeCaseFields rest

end

mutual

/-- Embeds `toCamelCase` of `src/api-client.ts`: recursively convert all
object keys to camelCase. -/
def toCamelCase : Json → Json
  | .null => .null
  | .bool b => .bool b
  | .num n => .num n
  | .str s => .str s
  | .arr elems => .arr (toCamelCaseList elems)
  | .obj fields => .obj (toCamelCaseFields fields)

/-- `obj.map(toCamelCase)` over an array. -/
def toCamelCaseList : List Json → List Json
  | [] => []
  | v :: rest => toCamelCase v :: toCamelCaseList rest

/-- The `Object.entries` loop of `toCamelCase`. -/
def toCamelCaseFields : List (String × Json) → List (String × Json)
  | [] => []
  | (k, v) :: rest => (camelKey k, toCamelCase v) :: toCamelCaseFields rest

end

mutual

/-- Every object key, at every nesting level, is free of underscores. -/
def noUnderscoreKeys : Json → Bool
  | .null => true
  | .bool _ => true
  | .num _ => true
  | .str _ => true
  | .arr elems => noUnderscoreKeysList elems
  | .obj fields => noUnderscoreKeysFields fields

/-- `noUnderscoreKeys` over an array's elements. -/
def noUnderscoreKeysList : List Json → Bool
  | [] => true
  | v :: rest => noUnderscoreKeys v && noUnderscoreKeysList rest

/-- `noUnderscoreKeys` over an object's fields. -/
def noUnderscoreKeysFields : List (String × Json) → Bool
  | [] => true
  | (k, v) :: rest =>
    decide ('_' ∉ k.data) && noUnderscoreKeys v && noUnderscoreKeysFields rest

end

/-- A concrete camelCase JSON value. -/
def sampleJson : Json :=
  .obj [("folderPath", .str "e2e"), ("jobDetail",
    .obj [("testName", .str "A"), ("startedAtMillis", .num 5)]),
    ("suitePath", .arr [.str "Checkout"])]

theorem onStepEndSteps_retained (steps : List SmartTestExecutionStep)
    (d : TestStepDescriptor) (now : Nat)
    (h : retainedCategory d.category = true) :
    onStepEndSteps steps d now =
      steps ++ [capturedStep d (steps.length + 1) now] := by
  have hcond : ¬(d.category ≠ "test.step" ∧ d.category ≠ "expect" ∧
      d.category ≠ "pw:api") := by
    simp only [retainedCategory, Bool.or_eq_true, decide_eq_true_eq] at h
    rcases h with (h | h) | h
    · exact fun hc => hc.1 h
    · exact fun hc => hc.2.1 h
    · exact fun hc => hc.2.2 h
  unfold onStepEndSteps
  rw [if_neg hcond]
  rfl

theorem onStepEndSteps_dropped (steps : List SmartTestExecutionStep)
    (d : TestStepDescriptor) (now : Nat)
    (h : retainedCategory d.category = false) :
    onStepEndSteps steps d now = steps := by
  have h' : d.category ≠ "test.step" ∧ d.category ≠ "expect" ∧
      d.category ≠ "pw:api" := by
    simp only [retainedCategory, Bool.or_eq_false_iff,
      decide_eq_false_iff_not] at h
    exact ⟨h.1.1, h.1.2, h.2⟩
  unfold onStepEndSteps
  rw [if_pos h']

theorem foldl_onStepEndSteps (events : List (TestStepDescriptor × Nat)) :
    ∀ steps : List SmartTestExecutionStep,
      events.foldl (fun s e => onStepEndSteps s e.1 e.2) steps =
        steps ++ buildFrom steps.length events := by
  induction events with
  | nil => intro steps; simp [buildFrom]
  | cons e rest ih =>
    intro steps
    obtain ⟨d, t⟩ := e
    by_cases haux : retainedCategory d.category = true
    · rw [List.foldl_cons]
      simp only [onStepEndSteps_retained steps d t haux]
      rw [ih]
      simp [buildFrom, haux]
    · rw [List.foldl_cons]
      simp only [onStepEndSteps_dropped steps d t (by
        cases hcat : retainedCategory d.category
        · rfl
        · exact absurd hcat haux)]
      rw [ih]
      simp only [buildFrom]
      rw [if_neg (by
        cases hcat : retainedCategory d.category
        · simp
        · exact absurd hcat haux)]

theorem buildFrom_length (events : List (TestStepDescriptor × Nat)) :
    ∀ n, (buildFrom n events).length = (retainedEvents events).length := by
  induction events with
  | nil => intro n; simp [buildFrom, retainedEvents]
  | cons e rest ih =>
    intro n
    obtain ⟨d, t⟩ := e
    by_cases hc : retainedCategory d.category = true
    · simp [buildFrom, hc, retainedEvents, List.filter_cons, ih]
    · simp only [Bool.not_eq_true] at hc
      simp [buildFrom, hc, retainedEvents, List.filter_cons, ih]

theorem buildFrom_getElem (events : List (TestStepDescriptor × Nat)) :
    ∀ n i, (buildFrom n events)[i]? =
      ((retainedEvents events)[i]?).map
        (fun e => capturedStep e.1 (n + i + 1) e.2) := by
  induction events with
  | nil => intro n i; simp [buildFrom, retainedEvents]
  | cons e rest ih =>
    intro n i
    obtain ⟨d, t⟩ := e
    cases hc : retainedCategory d.category with
    | true =>
      have hre : retainedEvents ((d, t) :: rest) =
          (d, t) :: retainedEvents rest := by
        simp [retainedEvents, List.filter_cons, hc]
      rw [hre]
      simp only [buildFrom, hc, if_true]
      cases i with
      | zero => simp
      | succ j =>
        simp only [List.getElem?_cons_succ]
        rw [ih (n + 1) j]
        have harith : n + 1 + j + 1 = n + (j + 1) + 1 := by ring
        simp [harith]
    | false =>
      have hre : retainedEvents ((d, t) :: rest) = retainedEvents rest := by
        simp [retainedEvents, List.filter_cons, hc]
      rw [hre]
      simp only [buildFrom, hc, Bool.false_eq_true, if_false]
      exact ih n i

theorem attachLoop_length (readFile : String → Option String) :
    ∀ (steps : List SmartTestExecutionStep) (shots : List Attachment),
      (attachLoop readFile steps shots).length = steps.length := by
  intro steps
  induction steps with
  | nil => intro shots; rfl
  | cons s rest ih =>
    intro shots
    cases hp : isFailingWithoutScreenshot s with
    | true =>
      cases shots with
      | nil => simp [attachLoop, hp]
      | cons shot shots' => simp [attachLoop, hp, ih]
    | false => simp [attachLoop, hp, ih]

theorem attachLoop_nil_shots (readFile : String → Option String) :
    ∀ steps : List SmartTestExecutionStep,
      attachLoop readFile steps [] = steps := by
  intro steps
  induction steps with
  | nil => rfl
  | cons s rest ih =>
    cases hp : isFailingWithoutScreenshot s with
    | true => simp [attachLoop, hp]
    | false => simp [attachLoop, hp, ih]

theorem selectByMask_self :
    ∀ steps : List SmartTestExecutionStep,
      selectByMask steps steps = steps.filter isFailingWithoutScreenshot := by
  intro steps
  induction steps with
  | nil => rfl
  | cons s rest ih =>
    cases hp : isFailingWithoutScreenshot s with
    | true => simp [selectByMask, List.filter_cons, hp, ih]
    | false => simp [selectByMask, List.filter_cons, hp, ih]

theorem attachLoop_selected (readFile : String → Option String) :
    ∀ (steps : List SmartTestExecutionStep) (shots : List Attachment),
      selectByMask steps (attachLoop readFile steps shots) =
        pairScreenshots readFile (steps.filter isFailingWithoutScreenshot)
          shots := by
  intro steps
  induction steps with
  | nil => intro shots; cases shots <;> rfl
  | cons s rest ih =>
    intro shots
    cases hp : isFailingWithoutScreenshot s with
    | true =>
      cases shots with
      | nil =>
        simp only [attachLoop, hp, if_true]
        rw [show selectByMask (s :: rest) (s :: rest) =
            (s :: rest).filter isFailingWithoutScreenshot from
          selectByMask_self (s :: rest)]
        simp [List.filter_cons, hp, pairScreenshots]
      | cons shot shots' =>
        simp only [attachLoop, hp, if_true]
        simp only [selectByMask, hp, if_true]
        rw [ih shots']
        simp [List.filter_cons, hp, pairScreenshots]
    | false =>
      simp only [attachLoop, hp, Bool.false_eq_true, if_false]
      simp only [selectByMask, hp, Bool.false_eq_true, if_false]
      rw [ih shots]
      simp [List.filter_cons, hp]

theorem attachLoop_unchangedAt (readFile : String → Option String) :
    ∀ (steps : List SmartTestExecutionStep) (shots : List Attachment)
      (i : Nat) (s : SmartTestExecutionStep),
      steps[i]? = some s → isFailingWithoutScreenshot s = false →
      (attachLoop readFile steps shots)[i]? = some s := by
  intro steps
  induction steps with
  | nil => intro shots i s hget; simp at hget
  | cons st rest ih =>
    intro shots i s hget hs
    cases hp : isFailingWithoutScreenshot st with
    | true =>
      cases shots with
      | nil => simp only [attachLoop, hp, if_true]; exact hget
      | cons shot shots' =>
        simp only [attachLoop, hp, if_true]
        cases i with
        | zero =>
          simp only [List.getElem?_cons_zero, Option.some_inj] at hget
          rw [hget] at hp
          rw [hp] at hs
          cases hs
        | succ j =>
          simp only [List.getElem?_cons_succ] at hget ⊢
          exact ih shots' j s hget hs
    | false =>
      simp only [attachLoop, hp, Bool.false_eq_true, if_false]
      cases i with
      | zero =>
        simp only [List.getElem?_cons_zero] at hget ⊢
        exact hget
      | succ j =>
        simp only [List.getElem?_cons_succ] at hget ⊢
        exact ih shots j s hget hs

theorem pairScreenshots_nil_shots (readFile : String → Option String) :
    ∀ steps : List SmartTestExecutionStep,
      pairScreenshots readFile steps [] = steps := by
  intro steps
  cases steps <;> rfl

theorem attachLoop_no_failing (readFile : String → Option String) :
    ∀ (steps : List SmartTestExecutionStep) (shots : List Attachment),
      steps.filter isFailingWithoutScreenshot = [] →
      attachLoop readFile steps shots = steps := by
  intro steps
  induction steps with
  | nil => intro shots _; rfl
  | cons s rest ih =>
    intro shots hfil
    rw [List.filter_cons] at hfil
    cases hp : isFailingWithoutScreenshot s with
    | true => rw [hp] at hfil; simp at hfil
    | false =>
      rw [hp] at hfil
      simp only [Bool.false_eq_true, if_false] at hfil
      simp [attachLoop, hp, ih shots hfil]

theorem attachScreenshots_eq_attachLoop
    (steps : List SmartTestExecutionStep) (attachments : List Attachment)
    (readFile : String → Option String) :
    attachScreenshotsToFailingSteps steps attachments readFile =
      attachLoop readFile steps (attachments.filter isImageAttachment) := by
  unfold attachScreenshotsToFailingSteps
  by_cases h1 : (attachments.filter isImageAttachment).length = 0
  · have hnil : attachments.filter isImageAttachment = [] :=
      List.length_eq_zero.mp h1
    simp only [h1, if_true, hnil]
    exact (attachLoop_nil_shots readFile steps).symm
  · simp only [h1, if_false]
    by_cases h2 : (steps.filter isFailingWithoutScreenshot).length = 0
    · have hnil : steps.filter isFailingWithoutScreenshot = [] :=
        List.length_eq_zero.mp h2
      simp only [h2, if_true]
      exact (attachLoop_no_failing readFile steps _ hnil).symm
    · simp only [h2, if_false]

theorem strMk_data (s : String) : String.mk s.data = s := rfl

theorem strData_inj : ∀ {a b : String}, a.data = b.data → a = b
  | ⟨_⟩, ⟨_⟩, rfl => rfl

theorem strData_append (a b : String) : (a ++ b).data = a.data ++ b.data := rfl

theorem splitChars_ne_nil (c : Char) : ∀ cs, splitChars c cs ≠ [] := by
  intro cs
  induction cs with
  | nil => simp [splitChars]
  | cons ch rest ih =>
    by_cases h : ch = c
    · simp [splitChars, h]
    · simp only [splitChars, if_neg h]
      cases hs : splitChars c rest with
      | nil => exact absurd hs ih
      | cons g gs => simp

theorem mem_splitChars_no_sep (c : Char) :
    ∀ cs g, g ∈ splitChars c cs → c ∉ g := by
  intro cs
  induction cs with
  | nil =>
    intro g hg
    simp only [splitChars, List.mem_singleton] at hg
    subst hg
    simp
  | cons ch rest ih =>
    intro g hg
    by_cases h : ch = c
    · simp only [splitChars, if_pos h, List.mem_cons] at hg
      rcases hg with rfl | hg
      · simp
      · exact ih g hg
    · simp only [splitChars, if_neg h] at hg
      cases hs : splitChars c rest with
      | nil => exact absurd hs (splitChars_ne_nil c rest)
      | cons g' gs' =>
        rw [hs] at hg
        rcases List.mem_cons.mp hg with rfl | hg2
        · intro hc
          rcases List.mem_cons.mp hc with rfl | hc2
          · exact h rfl
          · exact ih g' (hs ▸ List.mem_cons_self g' gs') hc2
        · exact ih g (hs ▸ List.mem_cons_of_mem g' hg2)

theorem splitChars_no_sep (c : Char) :
    ∀ cs, c ∉ cs → splitChars c cs = [cs] := by
  intro cs
  induction cs with
  | nil => intro _; rfl
  | cons ch rest ih =>
    intro h
    have hch : ¬(ch = c) := fun he => h (he ▸ List.mem_cons_self ch rest)
    have hrest : c ∉ rest := fun hm => h (List.mem_cons_of_mem ch hm)
    simp only [splitChars, if_neg hch, ih hrest]

theorem splitChars_append_sep (c : Char) :
    ∀ as bs, splitChars c (as ++ c :: bs) =
      splitChars c as ++ splitChars c bs := by
  intro as bs
  induction as with
  | nil => simp [splitChars]
  | cons a as' ih =>
    by_cases h : a = c
    · simp only [List.cons_append, splitChars, if_pos h]
      rw [show as'.append (c :: bs) = as' ++ c :: bs from rfl, ih]
    · simp only [List.cons_append, splitChars, if_neg h]
      rw [show as'.append (c :: bs) = as' ++ c :: bs from rfl, ih]
      cases hs : splitChars c as' with
      | nil => exact absurd hs (splitChars_ne_nil c as')
      | cons g gs => simp [hs]

theorem joinChars_cons (c : Char) (g : List Char) :
    ∀ gs, gs ≠ [] → joinChars c (g :: gs) = g ++ c :: joinChars c gs := by
  intro gs h
  cases gs with
  | nil => exact absurd rfl h
  | cons g1 gs' => rfl

theorem joinChars_concat (c : Char) :
    ∀ gs g, gs ≠ [] →
      joinChars c (gs ++ [g]) = joinChars c gs ++ c :: g := by
  intro gs
  induction gs with
  | nil => intro g h; exact absurd rfl h
  | cons g0 gs' ih =>
    intro g _
    cases gs' with
    | nil => rfl
    | cons g1 gs'' =>
      rw [List.cons_append,
        joinChars_cons c g0 ((g1 :: gs'') ++ [g]) (by simp),
        ih g (by simp),
        joinChars_cons c g0 (g1 :: gs'') (by simp)]
      simp

theorem splitChars_joinChars (c : Char) :
    ∀ gs, gs ≠ [] → (∀ g ∈ gs, c ∉ g) →
      splitChars c (joinChars c gs) = gs := by
  intro gs
  induction gs with
  | nil => intro h; exact absurd rfl h
  | cons g gs' ih =>
    intro _ hmem
    cases gs' with
    | nil =>
      show splitChars c (joinChars c [g]) = [g]
      exact splitChars_no_sep c g (hmem g (List.mem_singleton.mpr rfl))
    | cons g1 gs'' =>
      rw [joinChars_cons c g (g1 :: gs'') (by simp),
        splitChars_append_sep c g (joinChars c (g1 :: gs'')),
        splitChars_no_sep c g (hmem g (List.mem_cons_self g (g1 :: gs''))),
        ih (by simp) (fun x hx => hmem x (List.mem_cons_of_mem g hx))]
      rfl

theorem strSplit_strJoin (c : Char) (parts : List String)
    (h1 : parts ≠ []) (h2 : ∀ p ∈ parts, c ∉ p.data) :
    strSplitOnChar c (strJoinChar c parts) = parts := by
  unfold strSplitOnChar strJoinChar
  rw [show (String.mk (joinChars c (parts.map String.data))).data =
      joinChars c (parts.map String.data) from rfl]
  rw [splitChars_joinChars c (parts.map String.data) (by simpa)
    (by
      intro g hg
      obtain ⟨p, hp, rfl⟩ := List.mem_map.mp hg
      exact h2 p hp)]
  rw [show (fun g => String.mk g) = fun g : List Char => String.mk g from rfl]
  rw [List.map_map]
  have : (fun g : List Char => String.mk g) ∘ String.data = id := by
    funext p
    exact strMk_data p
  rw [this, List.map_id]

theorem normLoop_append (b : Bool) (xs ys acc : List String) :
    normLoop b acc (xs ++ ys) = normLoop b (normLoop b acc xs) ys :=
  List.foldl_append (normStep b) acc xs ys

theorem normLoop_false_mem :
    ∀ (segs acc : List String) (s : String), s ∈ normLoop false acc segs →
      s ∈ acc ∨ (s ∈ segs ∧ ¬(s = "" ∨ s = "." ∨ s = "..")) := by
  intro segs
  induction segs with
  | nil => intro acc s h; exact Or.inl h
  | cons seg rest ih =>
    intro acc s h
    have hstep : normLoop false acc (seg :: rest) =
        normLoop false (normStep false acc seg) rest := rfl
    rw [hstep] at h
    rcases ih (normStep false acc seg) s h with hacc | ⟨hmem, hgood⟩
    · unfold normStep at hacc
      by_cases h1 : seg = "" ∨ seg = "."
      · rw [if_pos h1] at hacc; exact Or.inl hacc
      · rw [if_neg h1] at hacc
        by_cases h2 : seg = ".."
        · rw [if_pos h2] at hacc
          cases hc : acc with
          | nil => rw [hc] at hacc; simp at hacc
          | cons top accTail =>
            rw [hc] at hacc
            by_cases h3 : top = ".."
            · subst h3
              have hacc2 : s ∈ (".." :: accTail : List String) := by
                simpa using hacc
              exact Or.inl (hc ▸ hacc2)
            · have hacc2 : s ∈ accTail := by simpa [h3] using hacc
              exact Or.inl (hc ▸ List.mem_cons_of_mem top hacc2)
        · rw [if_neg h2] at hacc
          rcases List.mem_cons.mp hacc with rfl | hacc2
          · exact Or.inr ⟨List.mem_cons_self s rest,
              by push_neg; exact ⟨fun he => h1 (Or.inl he),
                fun he => h1 (Or.inr he), h2⟩⟩
          · exact Or.inl hacc2
    · exact Or.inr ⟨List.mem_cons_of_mem seg hmem, hgood⟩

theorem normSegs_false_mem (segs : List String) (s : String)
    (h : s ∈ normSegs false segs) :
    s ∈ segs ∧ ¬(s = "" ∨ s = "." ∨ s = "..") := by
  unfold normSegs at h
  rw [List.mem_reverse] at h
  rcases normLoop_false_mem segs [] s h with habs | hgood
  · simp at habs
  · exact hgood

theorem normLoop_true_clean :
    ∀ (rest acc : List String),
      (∀ s ∈ rest, ¬(s = "" ∨ s = "." ∨ s = "..")) →
      normLoop true acc rest = rest.reverse ++ acc := by
  intro rest
  induction rest with
  | nil => intro acc _; simp [normLoop]
  | cons seg rest' ih =>
    intro acc hgood
    have hseg := hgood seg (List.mem_cons_self seg rest')
    push_neg at hseg
    have hstep : normLoop true acc (seg :: rest') =
        normLoop true (normStep true acc seg) rest' := rfl
    rw [hstep]
    have : normStep true acc seg = seg :: acc := by
      unfold normStep
      rw [if_neg (by push_neg; exact ⟨hseg.1, hseg.2.1⟩), if_neg hseg.2.2]
    rw [this, ih (seg :: acc)
      (fun s hs => hgood s (List.mem_cons_of_mem seg hs))]
    simp

theorem normLoop_true_dots :
    ∀ m j, normLoop true (List.replicate j "..") (List.replicate m "..") =
      List.replicate (m + j) ".." := by
  intro m
  induction m with
  | zero => intro j; simp [normLoop]
  | succ m' ih =>
    intro j
    have hrep : List.replicate (m' + 1) ".." =
        ".." :: List.replicate m' ".." := rfl
    rw [hrep]
    have hstep : normLoop true (List.replicate j "..")
        (".." :: List.replicate m' "..") =
        normLoop true (normStep true (List.replicate j "..") "..")
          (List.replicate m' "..") := rfl
    rw [hstep]
    have hns : normStep true (List.replicate j "..") ".." =
        List.replicate (j + 1) ".." := by
      unfold normStep
      rw [if_neg (by simp), if_pos rfl]
      cases j with
      | zero => rfl
      | succ j' =>
        have : List.replicate (j' + 1) ".." =
            ".." :: List.replicate j' ".." := rfl
        rw [this, if_pos rfl]
        rfl
    rw [hns, ih (j + 1)]
    congr 1
    omega

theorem normSegs_true_structure (m : Nat) (rest : List String)
    (hrest : ∀ s ∈ rest, ¬(s = "" ∨ s = "." ∨ s = "..")) :
    normSegs true (List.replicate m ".." ++ rest) =
      List.replicate m ".." ++ rest := by
  unfold normSegs
  rw [normLoop_append true (List.replicate m "..") rest []]
  have h0 : normLoop true [] (List.replicate m "..") =
      List.replicate m ".." := by
    have := normLoop_true_dots m 0
    simpa using this
  rw [h0, normLoop_true_clean rest (List.replicate m "..") hrest]
  simp

theorem strStartsWith_slash_iff (s : String) :
    strStartsWith s "/" = true ↔ ∃ rest, s.data = '/' :: rest := by
  show isPrefixChars ("/" : String).data s.data = true ↔ _
  rw [show ("/" : String).data = ['/'] from rfl]
  cases hdata : s.data with
  | nil => simp [isPrefixChars]
  | cons b bs =>
    simp only [isPrefixChars, Bool.and_eq_true, decide_eq_true_eq]
    constructor
    · rintro ⟨h1, _⟩
      exact ⟨bs, by rw [← h1]⟩
    · rintro ⟨rest, hr⟩
      injection hr with h1 h2
      exact ⟨h1.symm, trivial⟩

theorem strSplitOnChar_no_sep (c : Char) (str : String) :
    ∀ s ∈ strSplitOnChar c str, c ∉ s.data := by
  intro s hs
  unfold strSplitOnChar at hs
  obtain ⟨g, hg, rfl⟩ := List.mem_map.mp hs
  rw [show (String.mk g).data = g from rfl]
  exact mem_splitChars_no_sep c str.data g hg

theorem normSegs_false_clean (X : String) :
    cleanSegs (normSegs false (strSplitOnChar '/' X)) := by
  intro s hs
  obtain ⟨hmem, hbad⟩ := normSegs_false_mem _ s hs
  push_neg at hbad
  exact ⟨hbad.1, hbad.2.1, hbad.2.2, strSplitOnChar_no_sep '/' X s hmem⟩

theorem resolveOne_structure (cwd p : String)
    (hcwd : strStartsWith cwd "/" = true) :
    ∃ segs : List String,
      resolveOne cwd p = "/" ++ strJoinChar '/' segs ∧ cleanSegs segs := by
  by_cases hp : strStartsWith p "/" = true
  · refine ⟨normSegs false (strSplitOnChar '/' p), ?_,
      normSegs_false_clean p⟩
    simp only [resolveOne, hp, eq_self_iff_true, if_true, Bool.not_true]
  · have habs : strStartsWith (cwd ++ "/" ++ p) "/" = true := by
      apply (strStartsWith_slash_iff _).mpr
      obtain ⟨cr, hcr⟩ := (strStartsWith_slash_iff cwd).mp hcwd
      refine ⟨cr ++ '/' :: p.data, ?_⟩
      rw [strData_append, strData_append, hcr]
      simp
    refine ⟨normSegs false (strSplitOnChar '/' (cwd ++ "/" ++ p)), ?_,
      normSegs_false_clean _⟩
    simp only [resolveOne, hp, Bool.false_eq_true, if_false, habs,
      eq_self_iff_true, if_true, Bool.not_true]

theorem filter_split_slash_join (segs : List String)
    (hclean : cleanSegs segs) :
    (strSplitOnChar '/' ("/" ++ strJoinChar '/' segs)).filter
      (fun s => s ≠ "") = segs := by
  cases segs with
  | nil => rfl
  | cons s0 rest =>
    have hsplit : strSplitOnChar '/' ("/" ++ strJoinChar '/' (s0 :: rest)) =
        "" :: strSplitOnChar '/' (strJoinChar '/' (s0 :: rest)) := by
      unfold strSplitOnChar
      rw [show ("/" ++ strJoinChar '/' (s0 :: rest)).data =
          '/' :: (strJoinChar '/' (s0 :: rest)).data from by
        rw [strData_append]; rfl]
      rw [show splitChars '/' ('/' :: (strJoinChar '/' (s0 :: rest)).data) =
          [] :: splitChars '/' ((strJoinChar '/' (s0 :: rest)).data) from by
        simp [splitChars]]
      rfl
    rw [hsplit, strSplit_strJoin '/' (s0 :: rest) (by simp)
      (fun p hp => (hclean p hp).2.2.2)]
    have h0 : (("" : String) :: s0 :: rest).filter (fun s => s ≠ "") =
        (s0 :: rest).filter (fun s => s ≠ "") := by
      simp [List.filter_cons]
    rw [h0]
    exact List.filter_eq_self.mpr
      (fun a ha => by simp [(hclean a ha).1])

theorem pathRelative_structure (cwd a b : String)
    (hcwd : strStartsWith cwd "/" = true) :
    ∃ (m : Nat) (rest : List String), cleanSegs rest ∧
      pathRelative cwd a b =
        strJoinChar '/' (List.replicate m ".." ++ rest) := by
  obtain ⟨fsegs, hf, hfclean⟩ := resolveOne_structure cwd a hcwd
  obtain ⟨tsegs, ht, htclean⟩ := resolveOne_structure cwd b hcwd
  unfold pathRelative
  by_cases heq : resolveOne cwd a = resolveOne cwd b
  · refine ⟨0, [], by intro s hs; simp at hs, ?_⟩
    rw [if_pos heq]
    rfl
  · rw [if_neg heq]
    have hfs : (strSplitOnChar '/' (resolveOne cwd a)).filter
        (fun s => s ≠ "") = fsegs := by
      rw [hf]; exact filter_split_slash_join fsegs hfclean
    have hts : (strSplitOnChar '/' (resolveOne cwd b)).filter
        (fun s => s ≠ "") = tsegs := by
      rw [ht]; exact filter_split_slash_join tsegs htclean
    rw [hfs, hts]
    refine ⟨fsegs.length - commonPrefixLen fsegs tsegs,
      tsegs.drop (commonPrefixLen fsegs tsegs), ?_, rfl⟩
    intro s hs
    exact htclean s (List.drop_subset _ _ hs)

theorem takeWhile_all_stop {p : Char → Bool} :
    ∀ (A : List Char) (b : Char) (B : List Char),
      (∀ a ∈ A, p a = true) → p b = false →
      List.takeWhile p (A ++ b :: B) = A := by
  intro A
  induction A with
  | nil =>
    intro b B _ hb
    simp [List.takeWhile, hb]
  | cons a A' ih =>
    intro b B hA hb
    have ha : p a = true := hA a (List.mem_cons_self a A')
    simp only [List.cons_append, List.takeWhile, ha]
    rw [show A'.append (b :: B) = A' ++ b :: B from rfl,
      ih b B (fun x hx => hA x (List.mem_cons_of_mem a hx)) hb]

theorem dropWhile_all_stop {p : Char → Bool} :
    ∀ (A : List Char) (b : Char) (B : List Char),
      (∀ a ∈ A, p a = true) → p b = false →
      List.dropWhile p (A ++ b :: B) = b :: B := by
  intro A
  induction A with
  | nil =>
    intro b B _ hb
    simp [List.dropWhile, hb]
  | cons a A' ih =>
    intro b B hA hb
    have ha : p a = true := hA a (List.mem_cons_self a A')
    simp only [List.cons_append, List.dropWhile, ha]
    exact ih b B (fun x hx => hA x (List.mem_cons_of_mem a hx)) hb

theorem takeWhile_all {p : Char → Bool} :
    ∀ A : List Char, (∀ a ∈ A, p a = true) → List.takeWhile p A = A := by
  intro A
  induction A with
  | nil => intro _; rfl
  | cons a A' ih =>
    intro hA
    have ha : p a = true := hA a (List.mem_cons_self a A')
    simp only [List.takeWhile, ha]
    rw [ih (fun x hx => hA x (List.mem_cons_of_mem a hx))]

theorem dropWhile_all {p : Char → Bool} :
    ∀ A : List Char, (∀ a ∈ A, p a = true) → List.dropWhile p A = [] := by
  intro A
  induction A with
  | nil => intro _; rfl
  | cons a A' ih =>
    intro hA
    have ha : p a = true := hA a (List.mem_cons_self a A')
    simp only [List.dropWhile, ha]
    exact ih (fun x hx => hA x (List.mem_cons_of_mem a hx))

theorem dropWhile_head_false {p : Char → Bool} (h : Char) (t : List Char)
    (hh : p h = false) : List.dropWhile p (h :: t) = h :: t := by
  simp [List.dropWhile, hh]

theorem isPrefixChars_single_false (c h : Char) (t : List Char)
    (hne : c ≠ h) : isPrefixChars [c] (h :: t) = false := by
  simp [isPrefixChars, hne]

theorem joinChars_cons_eq (c : Char) (g : List Char)
    (gs : List (List Char)) :
    joinChars c (g :: gs) =
      g ++ (match gs with | [] => [] | _ :: _ => c :: joinChars c gs) := by
  cases gs with
  | nil => simp [joinChars]
  | cons g1 gs' => rfl

theorem strStartsWith_slash_false (s : String)
    (h : ∀ rest, s.data ≠ '/' :: rest) : strStartsWith s "/" = false := by
  cases hb : strStartsWith s "/" with
  | false => rfl
  | true =>
    obtain ⟨rest, hr⟩ := (strStartsWith_slash_iff s).mp hb
    exact absurd hr (h rest)

theorem strEndsWith_slash_iff (s : String) :
    strEndsWith s "/" = true ↔ ∃ rest, s.data.reverse = '/' :: rest := by
  show isPrefixChars ("/" : String).data.reverse s.data.reverse = true ↔ _
  rw [show ("/" : String).data.reverse = ['/'] from rfl]
  cases hdata : s.data.reverse with
  | nil => simp [isPrefixChars]
  | cons b bs =>
    simp only [isPrefixChars, Bool.and_eq_true, decide_eq_true_eq]
    constructor
    · rintro ⟨h1, _⟩
      exact ⟨bs, by rw [← h1]⟩
    · rintro ⟨rest, hr⟩
      injection hr with h1 h2
      exact ⟨h1.symm, trivial⟩

theorem strEndsWith_slash_false (s : String)
    (h : ∀ rest, s.data.reverse ≠ '/' :: rest) :
    strEndsWith s "/" = false := by
  cases hb : strEndsWith s "/" with
  | false => rfl
  | true =>
    obtain ⟨rest, hr⟩ := (strEndsWith_slash_iff s).mp hb
    exact absurd hr (h rest)

theorem cleanSeg_data_ne_nil (x : String) (hx : cleanSeg x) :
    x.data ≠ [] := by
  intro h
  exact hx.1 (strData_inj (by rw [h]))

theorem cleanSeg_mem_ne_slash (x : String) (hx : cleanSeg x) :
    ∀ ch ∈ x.data, ch ≠ '/' := by
  intro ch hch he
  exact hx.2.2.2 (he ▸ hch)

theorem strJoin_single (x : String) : strJoinChar '/' [x] = x := rfl

theorem pathDirname_single (x : String) (hx : cleanSeg x) :
    pathDirname x = "." := by
  unfold pathDirname
  rw [if_neg hx.1]
  cases hrev : x.data.reverse with
  | nil =>
    exact absurd (by simpa using congrArg List.reverse hrev)
      (cleanSeg_data_ne_nil x hx)
  | cons h t =>
    have hmem : ∀ ch ∈ h :: t, ch ≠ '/' := by
      intro ch hch
      exact cleanSeg_mem_ne_slash x hx ch
        (List.mem_reverse.mp (hrev ▸ hch))
    have h1 : List.dropWhile (fun ch => ch = '/') (h :: t) = h :: t :=
      dropWhile_head_false h t
        (by simp [hmem h (List.mem_cons_self h t)])
    have h2 : List.dropWhile (fun ch => ch ≠ '/') (h :: t) = [] :=
      dropWhile_all (h :: t) (fun a ha => by simp [hmem a ha])
    have hroot : strStartsWith x "/" = false := by
      apply strStartsWith_slash_false
      intro rest hr
      exact cleanSeg_mem_ne_slash x hx '/' (by rw [hr]; simp) rfl
    simp only [hrev, h1, h2, List.length_nil, Nat.zero_le, if_true, hroot,
      Bool.false_eq_true, if_false]

theorem pathBasename_single (x : String) (hx : cleanSeg x) :
    pathBasename x = x := by
  unfold pathBasename
  cases hrev : x.data.reverse with
  | nil =>
    exact absurd (by simpa using congrArg List.reverse hrev)
      (cleanSeg_data_ne_nil x hx)
  | cons h t =>
    have hmem : ∀ ch ∈ h :: t, ch ≠ '/' := by
      intro ch hch
      exact cleanSeg_mem_ne_slash x hx ch
        (List.mem_reverse.mp (hrev ▸ hch))
    have h1 : List.dropWhile (fun ch => ch = '/') (h :: t) = h :: t :=
      dropWhile_head_false h t
        (by simp [hmem h (List.mem_cons_self h t)])
    have h2 : List.takeWhile (fun ch => ch ≠ '/') (h :: t) = h :: t :=
      takeWhile_all (h :: t) (fun a ha => by simp [hmem a ha])
    simp only [hrev, h1, h2]
    rw [← hrev]
    simp only [List.reverse_reverse]

theorem joinChars_map_concat (init : List String) (lg : String)
    (hinit : init ≠ []) :
    joinChars '/' ((init ++ [lg]).map String.data) =
      joinChars '/' (init.map String.data) ++ '/' :: lg.data := by
  rw [List.map_append]
  exact joinChars_concat '/' (init.map String.data) lg.data
    (by simpa using hinit)

theorem pathDirname_multi (init : List String) (lg : String)
    (hinit : init ≠ []) (hclean : cleanSegs (init ++ [lg])) :
    pathDirname (strJoinChar '/' (init ++ [lg])) = strJoinChar '/' init := by
  have hlg : cleanSeg lg := hclean lg (by simp)
  have hJne : joinChars '/' (init.map String.data) ≠ [] := by
    cases init with
    | nil => exact absurd rfl hinit
    | cons i0 irest =>
      rw [List.map_cons, joinChars_cons_eq]
      have : i0.data ≠ [] :=
        cleanSeg_data_ne_nil i0 (hclean i0 (by simp))
      cases hd : i0.data with
      | nil => exact absurd hd this
      | cons c cs => simp [hd]
  have hdata : (strJoinChar '/' (init ++ [lg])).data =
      joinChars '/' (init.map String.data) ++ '/' :: lg.data := by
    rw [show (strJoinChar '/' (init ++ [lg])).data =
      joinChars '/' ((init ++ [lg]).map String.data) from rfl]
    exact joinChars_map_concat init lg hinit
  obtain ⟨lh, lt, hlrev⟩ : ∃ lh lt, lg.data.reverse = lh :: lt := by
    cases hr : lg.data.reverse with
    | nil =>
      exact absurd (by simpa using congrArg List.reverse hr)
        (cleanSeg_data_ne_nil lg hlg)
    | cons a b => exact ⟨a, b, rfl⟩
  have hlh : lh ≠ '/' :=
    cleanSeg_mem_ne_slash lg hlg lh (List.mem_reverse.mp (by rw [hlrev]; simp))
  have hrev : (strJoinChar '/' (init ++ [lg])).data.reverse =
      lh :: (lt ++ '/' :: (joinChars '/' (init.map String.data)).reverse) := by
    rw [hdata, List.reverse_append, List.reverse_cons, hlrev]
    simp
  have hne : strJoinChar '/' (init ++ [lg]) ≠ "" := by
    intro h
    have : (strJoinChar '/' (init ++ [lg])).data = [] := by rw [h]
    rw [hdata] at this
    simp at this
  have hroot : strStartsWith (strJoinChar '/' (init ++ [lg])) "/" = false := by
    apply strStartsWith_slash_false
    intro rest hr
    rw [hdata] at hr
    cases init with
    | nil => exact absurd rfl hinit
    | cons i0 irest =>
      have hi0 : cleanSeg i0 := hclean i0 (by simp)
      rw [List.map_cons, joinChars_cons_eq] at hr
      cases hd : i0.data with
      | nil => exact absurd hd (cleanSeg_data_ne_nil i0 hi0)
      | cons c cs =>
        rw [hd] at hr
        simp only [List.cons_append, List.append_assoc] at hr
        injection hr with h1 _
        exact cleanSeg_mem_ne_slash i0 hi0 c (by rw [hd]; simp) h1
  unfold pathDirname
  rw [if_neg hne]
  have h1 : List.dropWhile (fun ch => ch = '/')
      (strJoinChar '/' (init ++ [lg])).data.reverse =
      (strJoinChar '/' (init ++ [lg])).data.reverse := by
    rw [hrev]
    exact dropWhile_head_false lh _ (by simp [hlh])
  have h2 : List.dropWhile (fun ch => ch ≠ '/')
      (strJoinChar '/' (init ++ [lg])).data.reverse =
      '/' :: (joinChars '/' (init.map String.data)).reverse := by
    rw [hrev, show lh :: (lt ++ '/' ::
        (joinChars '/' (init.map String.data)).reverse) =
      (lh :: lt) ++ '/' :: (joinChars '/' (init.map String.data)).reverse
      from by simp]
    apply dropWhile_all_stop
    · intro a ha
      have : a ∈ lg.data := List.mem_reverse.mp (by rw [hlrev]; exact ha)
      simp [cleanSeg_mem_ne_slash lg hlg a this]
    · simp
  simp only [h1, h2]
  have hlen : ('/' :: (joinChars '/' (init.map String.data)).reverse).length =
      (joinChars '/' (init.map String.data)).length + 1 := by simp
  have hlenpos : 0 < (joinChars '/' (init.map String.data)).length :=
    List.length_pos.mpr hJne
  rw [if_neg (by omega)]
  have hcond : ¬(strStartsWith (strJoinChar '/' (init ++ [lg])) "/" = true ∧
      ('/' :: (joinChars '/' (init.map String.data)).reverse).length - 1 = 1) := by
    rw [hroot]
    simp
  rw [if_neg hcond]
  have htake : (strJoinChar '/' (init ++ [lg])).data.take
      (('/' :: (joinChars '/' (init.map String.data)).reverse).length - 1) =
      joinChars '/' (init.map String.data) := by
    rw [hdata, hlen]
    simp only [Nat.add_sub_cancel]
    rw [← List.length_reverse (joinChars '/' (init.map String.data))]
    rw [List.length_reverse]
    exact List.take_left _ _
  rw [htake]
  rfl

theorem pathBasename_multi (init : List String) (lg : String)
    (hinit : init ≠ []) (hclean : cleanSegs (init ++ [lg])) :
    pathBasename (strJoinChar '/' (init ++ [lg])) = lg := by
  have hlg : cleanSeg lg := hclean lg (by simp)
  have hdata : (strJoinChar '/' (init ++ [lg])).data =
      joinChars '/' (init.map String.data) ++ '/' :: lg.data := by
    rw [show (strJoinChar '/' (init ++ [lg])).data =
      joinChars '/' ((init ++ [lg]).map String.data) from rfl]
    exact joinChars_map_concat init lg hinit
  obtain ⟨lh, lt, hlrev⟩ : ∃ lh lt, lg.data.reverse = lh :: lt := by
    cases hr : lg.data.reverse with
    | nil =>
      exact absurd (by simpa using congrArg List.reverse hr)
        (cleanSeg_data_ne_nil lg hlg)
    | cons a b => exact ⟨a, b, rfl⟩
  have hlh : lh ≠ '/' :=
    cleanSeg_mem_ne_slash lg hlg lh (List.mem_reverse.mp (by rw [hlrev]; simp))
  have hrev : (strJoinChar '/' (init ++ [lg])).data.reverse =
      lg.data.reverse ++ '/' :: (joinChars '/' (init.map String.data)).reverse := by
    rw [hdata, List.reverse_append, List.reverse_cons]
    simp
  unfold pathBasename
  have h1 : List.dropWhile (fun ch => ch = '/')
      (strJoinChar '/' (init ++ [lg])).data.reverse =
      (strJoinChar '/' (init ++ [lg])).data.reverse := by
    rw [hrev, hlrev]
    exact dropWhile_head_false lh _ (by simp [hlh])
  have h2 : List.takeWhile (fun ch => ch ≠ '/')
      (strJoinChar '/' (init ++ [lg])).data.reverse = lg.data.reverse := by
    rw [hrev]
    apply takeWhile_all_stop
    · intro a ha
      have : a ∈ lg.data := List.mem_reverse.mp ha
      simp [cleanSeg_mem_ne_slash lg hlg a this]
    · simp
  simp only [h1, h2, List.reverse_reverse]

theorem strJoin_data_cons (s0 : String) (tail : List String)
    (h0 : s0.data ≠ []) :
    ∃ c cs, (strJoinChar '/' (s0 :: tail)).data = c :: cs ∧ c ∈ s0.data := by
  cases hd : s0.data with
  | nil => exact absurd hd h0
  | cons c cs' =>
    refine ⟨c, cs' ++ (match tail.map String.data with
      | [] => [] | _ :: _ => '/' :: joinChars '/' (tail.map String.data)), ?_, by
        simp [hd]⟩
    rw [show (strJoinChar '/' (s0 :: tail)).data =
      joinChars '/' (s0.data :: tail.map String.data) from rfl]
    rw [joinChars_cons_eq, hd]
    simp

theorem strJoin_ne_empty (s0 : String) (tail : List String)
    (h0 : s0.data ≠ []) : strJoinChar '/' (s0 :: tail) ≠ "" := by
  obtain ⟨c, cs, hdata, _⟩ := strJoin_data_cons s0 tail h0
  intro h
  have : (strJoinChar '/' (s0 :: tail)).data = [] := by rw [h]
  rw [hdata] at this
  simp at this

theorem strStartsWith_join_slash_false (s0 : String) (tail : List String)
    (h0 : s0.data ≠ []) (hs : '/' ∉ s0.data) :
    strStartsWith (strJoinChar '/' (s0 :: tail)) "/" = false := by
  obtain ⟨c, cs, hdata, hcmem⟩ := strJoin_data_cons s0 tail h0
  apply strStartsWith_slash_false
  intro rest hr
  rw [hdata] at hr
  injection hr with h1 _
  exact hs (h1 ▸ hcmem)

theorem strEndsWith_join_false (L : List String) (hL : L ≠ [])
    (hgood : ∀ s ∈ L, s.data ≠ [] ∧ '/' ∉ s.data) :
    strEndsWith (strJoinChar '/' L) "/" = false := by
  have hsplit : L.dropLast ++ [L.getLast hL] = L :=
    List.dropLast_append_getLast hL
  set lg := L.getLast hL with hlgdef
  have hlgmem : lg ∈ L := List.getLast_mem hL
  have hlgne : lg.data ≠ [] := (hgood lg hlgmem).1
  have hlgslash : '/' ∉ lg.data := (hgood lg hlgmem).2
  obtain ⟨lh, lt, hlrev⟩ : ∃ lh lt, lg.data.reverse = lh :: lt := by
    cases hr : lg.data.reverse with
    | nil =>
      exact absurd (by simpa using congrArg List.reverse hr) hlgne
    | cons a b => exact ⟨a, b, rfl⟩
  have hlh : lh ≠ '/' := by
    intro he
    exact hlgslash (he ▸ List.mem_reverse.mp (by rw [hlrev]; simp))
  apply strEndsWith_slash_false
  intro rest hr
  cases hinit : L.dropLast with
  | nil =>
    have hLeq : L = [lg] := by rw [← hsplit, hinit]; rfl
    rw [hLeq] at hr
    rw [show (strJoinChar '/' [lg]).data = lg.data from rfl] at hr
    rw [hlrev] at hr
    injection hr with h1 _
    exact hlh h1
  | cons i0 irest =>
    have hLeq : L = (i0 :: irest) ++ [lg] := by rw [← hsplit, hinit]
    rw [hLeq] at hr
    rw [show (strJoinChar '/' ((i0 :: irest) ++ [lg])).data =
      joinChars '/' (((i0 :: irest) ++ [lg]).map String.data) from rfl] at hr
    rw [joinChars_map_concat (i0 :: irest) lg (by simp)] at hr
    rw [List.reverse_append, List.reverse_cons, hlrev] at hr
    simp only [List.cons_append, List.nil_append, List.append_assoc] at hr
    injection hr with h1 _
    exact hlh h1

theorem filter_dots (m : Nat) (rest : List String)
    (hrest : cleanSegs rest) :
    (List.replicate m ".." ++ rest).filter
      (fun q => decide (q ≠ ".." ∧ q ≠ ".")) = rest := by
  rw [List.filter_append]
  have h1 : (List.replicate m "..").filter
      (fun q => decide (q ≠ ".." ∧ q ≠ ".")) = [] := by
    apply List.filter_eq_nil_iff.mpr
    intro a ha
    rw [List.eq_of_mem_replicate ha]
    simp
  have h2 : rest.filter (fun q => decide (q ≠ ".." ∧ q ≠ ".")) = rest := by
    apply List.filter_eq_self.mpr
    intro a ha
    have := hrest a ha
    simp [this.2.1, this.2.2.1]
  rw [h1, h2]
  rfl

theorem strStartsWith_dotdot (m : Nat) (hm : m ≠ 0) (rest : List String) :
    strStartsWith
      (strJoinChar '/' (List.replicate m ".." ++ rest)) ".." = true := by
  cases m with
  | zero => exact absurd rfl hm
  | succ m' =>
    rw [show List.replicate (m' + 1) ".." ++ rest =
      ".." :: (List.replicate m' ".." ++ rest) from rfl]
    show isPrefixChars (".." : String).data
      (strJoinChar '/' (".." :: (List.replicate m' ".." ++ rest))).data = true
    rw [show (strJoinChar '/'
        (".." :: (List.replicate m' ".." ++ rest))).data =
      joinChars '/' ((".." : String).data ::
        (List.replicate m' ".." ++ rest).map String.data) from rfl]
    rw [joinChars_cons_eq]
    rw [show (".." : String).data = ['.', '.'] from rfl]
    simp [isPrefixChars]

theorem pathNormalize_fix (m : Nat) (rest : List String)
    (hrest : cleanSegs rest) (hne : m ≠ 0 ∨ rest ≠ []) :
    pathNormalize (strJoinChar '/' (List.replicate m ".." ++ rest)) =
      strJoinChar '/' (List.replicate m ".." ++ rest) := by
  have hgood : ∀ s ∈ List.replicate m ".." ++ rest,
      s.data ≠ [] ∧ '/' ∉ s.data := by
    intro s hs
    rcases List.mem_append.mp hs with hs | hs
    · rw [List.eq_of_mem_replicate hs]
      exact ⟨by decide, by decide⟩
    · have hc := hrest s hs
      exact ⟨cleanSeg_data_ne_nil s hc, hc.2.2.2⟩
  have hLne : List.replicate m ".." ++ rest ≠ [] := by
    intro hcontr
    obtain ⟨h1, h2⟩ := List.append_eq_nil.mp hcontr
    rcases hne with hm | hr
    · exact hm ((List.replicate_eq_nil_iff "..").mp h1)
    · exact hr h2
  obtain ⟨s0, tail, hLcons⟩ : ∃ s0 tail,
      List.replicate m ".." ++ rest = s0 :: tail := by
    cases hL : List.replicate m ".." ++ rest with
    | nil => exact absurd hL hLne
    | cons a b => exact ⟨a, b, rfl⟩
  have hs0 : s0.data ≠ [] ∧ '/' ∉ s0.data :=
    hgood s0 (by rw [hLcons]; exact List.mem_cons_self s0 tail)
  have hpne : strJoinChar '/' (List.replicate m ".." ++ rest) ≠ "" := by
    rw [hLcons]; exact strJoin_ne_empty s0 tail hs0.1
  have habs : strStartsWith
      (strJoinChar '/' (List.replicate m ".." ++ rest)) "/" = false := by
    rw [hLcons]; exact strStartsWith_join_slash_false s0 tail hs0.1 hs0.2
  have htrail : strEndsWith
      (strJoinChar '/' (List.replicate m ".." ++ rest)) "/" = false :=
    strEndsWith_join_false _ hLne hgood
  have hsplit : strSplitOnChar '/'
      (strJoinChar '/' (List.replicate m ".." ++ rest)) =
      List.replicate m ".." ++ rest :=
    strSplit_strJoin '/' _ hLne (fun p hp => (hgood p hp).2)
  have hnorm : normSegs true (List.replicate m ".." ++ rest) =
      List.replicate m ".." ++ rest :=
    normSegs_true_structure m rest (fun s hs => by
      have hc := hrest s hs
      intro hbad
      rcases hbad with h | h | h
      · exact hc.1 h
      · exact hc.2.1 h
      · exact hc.2.2.1 h)
  unfold pathNormalize
  rw [if_neg hpne]
  simp only [habs, htrail, hsplit, Bool.not_false, hnorm, hpne,
    eq_self_iff_true, and_true, false_and, and_false, Bool.false_eq_true,
    if_false, ne_eq]

theorem derivePaths_via_relAfterStrip (cwd locationFile title : String)
    (parents : List SuiteNode) (testsFolder rootDir : String) :
    derivePaths cwd locationFile title parents testsFolder rootDir =
      { folderPath :=
          if pathDirname (relAfterStrip cwd
              (if testsFolder ≠ "" then pathResolve2 cwd rootDir testsFolder
               else rootDir)
              (if (!(pathIsAbsolute locationFile)) = true then
                pathResolve2 cwd rootDir locationFile
               else locationFile)) = "." then ""
          else pathDirname (relAfterStrip cwd
              (if testsFolder ≠ "" then pathResolve2 cwd rootDir testsFolder
               else rootDir)
              (if (!(pathIsAbsolute locationFile)) = true then
                pathResolve2 cwd rootDir locationFile
               else locationFile))
        fileName := pathBasename (relAfterStrip cwd
            (if testsFolder ≠ "" then pathResolve2 cwd rootDir testsFolder
             else rootDir)
            (if (!(pathIsAbsolute locationFile)) = true then
              pathResolve2 cwd rootDir locationFile
             else locationFile))
        suitePath := buildSuitePath locationFile parents
        testName := title } := rfl

theorem relAfterStrip_structure (cwd a b : String)
    (hcwd : strStartsWith cwd "/" = true) :
    relAfterStrip cwd a b = "." ∨
    ∃ rest, cleanSegs rest ∧ relAfterStrip cwd a b = strJoinChar '/' rest := by
  obtain ⟨m, rest, hclean, hrel⟩ := pathRelative_structure cwd a b hcwd
  by_cases hmr : m = 0 ∧ rest = []
  · left
    obtain ⟨hm0, hr0⟩ := hmr
    have h1 : pathRelative cwd a b = "" := by
      rw [hrel, hm0, hr0]
      rfl
    unfold relAfterStrip
    rw [h1]
    decide
  · right
    have hne : m ≠ 0 ∨ rest ≠ [] := by
      rcases not_and_or.mp hmr with h | h
      · exact Or.inl h
      · exact Or.inr h
    have hgood : ∀ s ∈ List.replicate m ".." ++ rest, '/' ∉ s.data := by
      intro s hs
      rcases List.mem_append.mp hs with hs | hs
      · rw [List.eq_of_mem_replicate hs]; decide
      · exact (hclean s hs).2.2.2
    have hLne : List.replicate m ".." ++ rest ≠ [] := by
      intro hcontr
      obtain ⟨h1, h2⟩ := List.append_eq_nil.mp hcontr
      rcases hne with hm | hr
      · exact hm ((List.replicate_eq_nil_iff "..").mp h1)
      · exact hr h2
    unfold relAfterStrip
    rw [hrel, pathNormalize_fix m rest hclean hne]
    by_cases hsw : strStartsWith
        (strJoinChar '/' (List.replicate m ".." ++ rest)) ".." = true
    · rw [if_pos hsw]
      rw [strSplit_strJoin '/' _ hLne hgood]
      rw [filter_dots m rest hclean]
      exact ⟨rest, hclean, rfl⟩
    · rw [if_neg hsw]
      have hm0 : m = 0 := by
        by_contra hm
        exact hsw (strStartsWith_dotdot m hm rest)
      rw [hm0]
      exact ⟨rest, hclean, by rw [List.replicate_zero, List.nil_append]⟩

theorem strSplitOnChar_single (c : Char) (x : String) (hx : c ∉ x.data) :
    strSplitOnChar c x = [x] := by
  unfold strSplitOnChar
  rw [splitChars_no_sep c x.data hx]
  simp [strMk_data]

theorem noParent_single (x : String) (hx : cleanSeg x) :
    ".." ∉ strSplitOnChar '/' x := by
  rw [strSplitOnChar_single '/' x hx.2.2.2]
  intro hmem
  exact hx.2.2.1 (List.mem_singleton.mp hmem).symm

theorem noParent_of_relFinal (r : String)
    (h : r = "." ∨ ∃ rest, cleanSegs rest ∧ r = strJoinChar '/' rest) :
    ".." ∉ strSplitOnChar '/'
      (if pathDirname r = "." then "" else pathDirname r) ∧
    ".." ∉ strSplitOnChar '/' (pathBasename r) := by
  rcases h with h | ⟨rest, hclean, h⟩
  · subst h
    exact ⟨by decide, by decide⟩
  · subst h
    rcases rest with _ | ⟨x, rest'⟩
    · exact ⟨by decide, by decide⟩
    · have hx : cleanSeg x := hclean x (List.mem_cons_self x rest')
      rcases List.eq_nil_or_concat rest' with rfl | ⟨init', lg, rfl⟩
      · rw [strJoin_single]
        constructor
        · rw [pathDirname_single x hx, if_pos rfl]
          decide
        · rw [pathBasename_single x hx]
          exact noParent_single x hx
      · simp only [List.concat_eq_append] at hclean ⊢
        have hsplit2 : x :: (init' ++ [lg]) = (x :: init') ++ [lg] := by simp
        rw [hsplit2]
        have hclean2 : cleanSegs ((x :: init') ++ [lg]) := by
          intro s hs
          apply hclean
          rw [hsplit2]
          exact hs
        have hlg : cleanSeg lg := hclean2 lg (by simp)
        constructor
        · rw [pathDirname_multi (x :: init') lg (by simp) hclean2]
          by_cases hdot : strJoinChar '/' (x :: init') = "."
          · rw [if_pos hdot]
            decide
          · rw [if_neg hdot]
            have hinitclean : cleanSegs (x :: init') := by
              intro s hs
              exact hclean2 s (List.mem_append.mpr (Or.inl hs))
            rw [strSplit_strJoin '/' (x :: init') (by simp)
              (fun p hp => (hinitclean p hp).2.2.2)]
            intro hmem
            exact (hinitclean ".." hmem).2.2.1 rfl
        · rw [pathBasename_multi (x :: init') lg (by simp) hclean2]
          exact noParent_single lg hlg

theorem resolveOne_abs (cwd p : String) (hp : strStartsWith p "/" = true) :
    resolveOne cwd p =
      "/" ++ strJoinChar '/' (normSegs false (strSplitOnChar '/' p)) := by
  simp only [resolveOne, hp, eq_self_iff_true, if_true, Bool.not_true]

theorem commonPrefixLen_append (l r : List String) :
    commonPrefixLen l (l ++ r) = l.length := by
  induction l with
  | nil => cases r <;> rfl
  | cons a l' ih =>
    simp only [List.cons_append, commonPrefixLen, eq_self_iff_true, if_true]
    rw [show l'.append r = l' ++ r from rfl, ih]
    rfl

theorem derivePaths_direct_file (cwd rootDir name title : String)
    (parents : List SuiteNode)
    (hroot : strStartsWith rootDir "/" = true)
    (hname : cleanSeg name) :
    (derivePaths cwd (rootDir ++ "/" ++ name) title parents
      "" rootDir).folderPath = "" ∧
    (derivePaths cwd (rootDir ++ "/" ++ name) title parents
      "" rootDir).fileName = name := by
  have habs : strStartsWith (rootDir ++ "/" ++ name) "/" = true := by
    apply (strStartsWith_slash_iff _).mpr
    obtain ⟨cr, hcr⟩ := (strStartsWith_slash_iff rootDir).mp hroot
    exact ⟨cr ++ '/' :: name.data, by
      rw [strData_append, strData_append, hcr]; simp⟩
  have hBclean : cleanSegs (normSegs false (strSplitOnChar '/' rootDir)) :=
    normSegs_false_clean rootDir
  have hf : resolveOne cwd rootDir =
      "/" ++ strJoinChar '/' (normSegs false (strSplitOnChar '/' rootDir)) :=
    resolveOne_abs cwd rootDir hroot
  have hsplitT : strSplitOnChar '/' (rootDir ++ "/" ++ name) =
      strSplitOnChar '/' rootDir ++ [name] := by
    unfold strSplitOnChar
    rw [show (rootDir ++ "/" ++ name).data =
      rootDir.data ++ '/' :: name.data from by
        rw [strData_append, strData_append]; simp]
    rw [splitChars_append_sep, splitChars_no_sep '/' name.data hname.2.2.2,
      List.map_append]
    simp [strMk_data]
  have hnormT : normSegs false (strSplitOnChar '/' (rootDir ++ "/" ++ name)) =
      normSegs false (strSplitOnChar '/' rootDir) ++ [name] := by
    rw [hsplitT]
    unfold normSegs normLoop
    rw [List.foldl_append]
    rw [show List.foldl (normStep false)
        ((strSplitOnChar '/' rootDir).foldl (normStep false) []) [name] =
      normStep false
        ((strSplitOnChar '/' rootDir).foldl (normStep false) []) name
      from rfl]
    rw [show normStep false
        ((strSplitOnChar '/' rootDir).foldl (normStep false) []) name =
      name :: ((strSplitOnChar '/' rootDir).foldl (normStep false) []) from by
        unfold normStep
        rw [if_neg (by push_neg; exact ⟨hname.1, hname.2.1⟩),
          if_neg hname.2.2.1]]
    rw [List.reverse_cons]
  have hcleanBn : cleanSegs
      (normSegs false (strSplitOnChar '/' rootDir) ++ [name]) := by
    intro s hs
    rcases List.mem_append.mp hs with hs | hs
    · exact hBclean s hs
    · rw [List.mem_singleton.mp hs]; exact hname
  have ht : resolveOne cwd (rootDir ++ "/" ++ name) =
      "/" ++ strJoinChar '/'
        (normSegs false (strSplitOnChar '/' rootDir) ++ [name]) := by
    rw [resolveOne_abs cwd _ habs, hnormT]
  have hfneqt : ¬(resolveOne cwd rootDir =
      resolveOne cwd (rootDir ++ "/" ++ name)) := by
    intro heq
    have h1 := filter_split_slash_join
      (normSegs false (strSplitOnChar '/' rootDir)) hBclean
    have h2 := filter_split_slash_join
      (normSegs false (strSplitOnChar '/' rootDir) ++ [name]) hcleanBn
    rw [← hf] at h1
    rw [← ht] at h2
    rw [heq] at h1
    rw [h2] at h1
    have := congrArg List.length h1
    simp at this
  have hrel : pathRelative cwd rootDir (rootDir ++ "/" ++ name) = name := by
    have e1 := filter_split_slash_join
      (normSegs false (strSplitOnChar '/' rootDir)) hBclean
    have e2 := filter_split_slash_join
      (normSegs false (strSplitOnChar '/' rootDir) ++ [name]) hcleanBn
    unfold pathRelative
    rw [if_neg hfneqt]
    simp only [hf, ht, e1, e2, commonPrefixLen_append, Nat.sub_self,
      List.replicate_zero, List.nil_append, List.drop_left]
    exact strJoin_single name
  have hn : pathNormalize name = name := by
    have := pathNormalize_fix 0 [name]
      (fun s hs => by rw [List.mem_singleton.mp hs]; exact hname)
      (Or.inr (by simp))
    simpa [strJoin_single] using this
  have hras : relAfterStrip cwd rootDir (rootDir ++ "/" ++ name) = name := by
    unfold relAfterStrip
    rw [hrel, hn]
    by_cases hsw : strStartsWith name ".." = true
    · rw [if_pos hsw, strSplitOnChar_single '/' name hname.2.2.2]
      rw [show List.filter (fun q => decide (q ≠ ".." ∧ q ≠ ".")) [name] =
        [name] from by simp [hname.2.2.1, hname.2.1]]
      exact strJoin_single name
    · rw [if_neg hsw]
  have hbase : (if ("" : String) ≠ "" then pathResolve2 cwd rootDir ""
      else rootDir) = rootDir := by simp
  have hfile : (if (!(pathIsAbsolute (rootDir ++ "/" ++ name))) = true then
      pathResolve2 cwd rootDir (rootDir ++ "/" ++ name)
    else (rootDir ++ "/" ++ name)) = rootDir ++ "/" ++ name := by
    simp [pathIsAbsolute, habs]
  rw [derivePaths_via_relAfterStrip]
  constructor
  · simp only [hbase, hfile, hras]
    rw [pathDirname_single name hname]
    rfl
  · simp only [hbase, hfile, hras]
    exact pathBasename_single name hname

theorem processSteps_eq_buildFrom (events : List (TestStepDescriptor × Nat)) :
    processSteps events = buildFrom 0 events := by
  unfold processSteps
  rw [foldl_onStepEndSteps events []]
  simp

/-- C1, counterexample: the stepId assigned to a step is not independent
of wall-clock time — the same one-step sequence observed at time 0 and
at time 1 produces different stepIds, because `generateStepId` embeds
`Date.now()` in the id. -/
theorem C1_counterexample :
    (processSteps [(sampleStepDescriptor, 0)]).map SmartTestExecutionStep.stepId ≠
      (processSteps [(sampleStepDescriptor, 1)]).map SmartTestExecutionStep.stepId := by
  decide

/-- C1, amended: the stepId of the `i`-th retained step of an attempt is
`generateStepId (i + 1) t` where `t` is the wall-clock time at which that
step was observed: the positional component is derived solely from the
1-based position in the retained sequence (1, 2, 3, …, hence strictly
increasing), while the second component depends on the wall clock, so
runs at different times produce different ids. -/
theorem C1_amended (events : List (TestStepDescriptor × Nat)) :
    (processSteps events).length = (retainedEvents events).length ∧
    ∀ i, ((processSteps events)[i]?).map SmartTestExecutionStep.stepId =
      ((retainedEvents events)[i]?).map
        (fun e => some (generateStepId (i + 1) e.2)) := by
  constructor
  · rw [processSteps_eq_buildFrom]
    exact buildFrom_length events 0
  · intro i
    rw [processSteps_eq_buildFrom, buildFrom_getElem events 0 i]
    cases h : (retainedEvents events)[i]? with
    | none => rfl
    | some e => simp [capturedStep]

/-- C1 amended, witness at a concrete event sequence: the second retained
step of `sampleEvents` (observed at time 9) gets stepId
`generateStepId 2 9`. -/
theorem C1_amended_witness :
    ((processSteps sampleEvents)[1]?).map SmartTestExecutionStep.stepId =
      some (some (generateStepId 2 9)) :=
  (C1_amended sampleEvents).2 1

/-- C2: the final-attempt decision returns true iff the test passed, or
no RetryInfo is recorded for the identity, or the retry index reached the
recorded maxRetries; in particular a pass is always final (for any retry
index and configuration), and an identity absent from the retry table is
always final. -/
theorem C2_isFinalAttempt_characterization :
    ∀ (retryInfo : Option RetryInfo) (retry : Nat) (testPassed : Bool),
      (isFinalAttempt retryInfo retry testPassed = true ↔
        (testPassed = true ∨ retryInfo = none ∨
          ∃ info, retryInfo = some info ∧ info.maxRetries ≤ retry)) ∧
      (testPassed = true → isFinalAttempt retryInfo retry testPassed = true) ∧
      (retryInfo = none → isFinalAttempt retryInfo retry testPassed = true) := by
  intro ri retry p
  refine ⟨?_, ?_, ?_⟩
  · cases ri with
    | none => cases p <;> simp [isFinalAttempt]
    | some info => cases p <;> simp [isFinalAttempt, ge_iff_le]
  · intro hp
    subst hp
    simp [isFinalAttempt]
  · intro hn
    subst hn
    simp [isFinalAttempt]

/-- C2 witness: a pass on the very first attempt with maxRetries 5 is
final. -/
theorem C2_isFinalAttempt_characterization_witness :
    isFinalAttempt (some { maxRetries := 5, currentAttempt := 0 }) 0 true = true :=
  (C2_isFinalAttempt_characterization
    (some { maxRetries := 5, currentAttempt := 0 }) 0 true).2.1 rfl

/-- C5: a step descriptor is retained (appended to the attempt's step
sequence) iff its category is `test.step`, `expect` or `pw:api`; a
retained step's status is FAILURE exactly when the descriptor carries an
error and SUCCESS otherwise, and its `wasRepaired` flag is initialized to
false. -/
theorem C5_step_filter_and_status :
    ∀ (steps : List SmartTestExecutionStep) (d : TestStepDescriptor) (now : Nat),
      (onStepEndSteps steps d now =
          steps ++ [capturedStep d (steps.length + 1) now] ↔
        (d.category = "test.step" ∨ d.category = "expect" ∨
          d.category = "pw:api")) ∧
      (onStepEndSteps steps d now = steps ↔
        ¬(d.category = "test.step" ∨ d.category = "expect" ∨
          d.category = "pw:api")) ∧
      ((capturedStep d (steps.length + 1) now).status =
          .FAILURE_STEP_EXECUTION ↔ d.error.isSome = true) ∧
      ((capturedStep d (steps.length + 1) now).status =
          .SUCCESS_STEP_EXECUTION ↔ d.error = none) ∧
      (capturedStep d (steps.length + 1) now).wasRepaired = some false := by
  intro steps d now
  have hcases : retainedCategory d.category = true ↔
      (d.category = "test.step" ∨ d.category = "expect" ∨
        d.category = "pw:api") := by
    simp [retainedCategory, or_assoc]
  refine ⟨?_, ?_, ?_, ?_, ?_⟩
  · constructor
    · intro heq
      cases hc : retainedCategory d.category with
      | true => exact hcases.mp hc
      | false =>
        rw [onStepEndSteps_dropped steps d now hc] at heq
        have := congrArg List.length heq
        simp at this
    · intro hcat
      exact onStepEndSteps_retained steps d now (hcases.mpr hcat)
  · constructor
    · intro heq hcat
      rw [onStepEndSteps_retained steps d now (hcases.mpr hcat)] at heq
      have := congrArg List.length heq
      simp at this
    · intro hcat
      cases hc : retainedCategory d.category with
      | true => exact absurd (hcases.mp hc) hcat
      | false => exact onStepEndSteps_dropped steps d now hc
  · cases herr : d.error <;> simp [capturedStep, herr]
  · cases herr : d.error <;> simp [capturedStep, herr]
  · rfl

/-- C5 witness: a failing `expect` step is retained with FAILURE status
and `wasRepaired = false`, and a `hook` step is dropped. -/
theorem C5_step_filter_and_status_witness :
    onStepEndSteps [] sampleFailedExpect 3 =
      [capturedStep sampleFailedExpect 1 3] ∧
    (capturedStep sampleFailedExpect 1 3).status = .FAILURE_STEP_EXECUTION ∧
    (capturedStep sampleFailedExpect 1 3).wasRepaired = some false ∧
    onStepEndSteps [] sampleHookDescriptor 3 = [] :=
  ⟨(C5_step_filter_and_status [] sampleFailedExpect 3).1.mpr
      (Or.inr (Or.inl rfl)),
    (C5_step_filter_and_status [] sampleFailedExpect 3).2.2.1.mpr rfl,
    (C5_step_filter_and_status [] sampleFailedExpect 3).2.2.2.2,
    (C5_step_filter_and_status [] sampleHookDescriptor 3).2.1.mpr (by decide)⟩

/-- C3: the screenshot pass pairs exactly the image-typed attachments
that carry a truthy file reference with exactly the
FAILURE-without-screenshot steps, in original order and one screenshot
per failing step, stopping when the shorter list is exhausted; every step
that is not a FAILURE-without-screenshot step (in particular every
SUCCESS step) is left unchanged, so no step receives more than one
screenshot and no screenshot is assigned to more than one step. -/
theorem C3_screenshot_pairing :
    ∀ (steps : List SmartTestExecutionStep) (attachments : List Attachment)
      (readFile : String → Option String),
      (attachScreenshotsToFailingSteps steps attachments readFile).length =
        steps.length ∧
      (∀ (i : Nat) (s : SmartTestExecutionStep), steps[i]? = some s →
        isFailingWithoutScreenshot s = false →
        (attachScreenshotsToFailingSteps steps attachments readFile)[i]? =
          some s) ∧
      selectByMask steps
          (attachScreenshotsToFailingSteps steps attachments readFile) =
        pairScreenshots readFile (steps.filter isFailingWithoutScreenshot)
          (attachments.filter isImageAttachment) := by
  intro steps attachments readFile
  simp only [attachScreenshots_eq_attachLoop]
  exact ⟨attachLoop_length readFile steps _,
    fun i s hget hs => attachLoop_unchangedAt readFile steps _ i s hget hs,
    attachLoop_selected readFile steps _⟩

/-- C3 witness on concrete data: three steps (failing, passing, failing)
and one image among two attachments — the passing step is untouched and
the pairing matches the specification-side pairing function. -/
theorem C3_screenshot_pairing_witness :
    (attachScreenshotsToFailingSteps sampleSteps sampleAttachments
        sampleReadFile).length = 3 ∧
    (attachScreenshotsToFailingSteps sampleSteps sampleAttachments
        sampleReadFile)[1]? = some samplePassStep ∧
    selectByMask sampleSteps
        (attachScreenshotsToFailingSteps sampleSteps sampleAttachments
          sampleReadFile) =
      pairScreenshots sampleReadFile
        (sampleSteps.filter isFailingWithoutScreenshot)
        (sampleAttachments.filter isImageAttachment) :=
  ⟨((C3_screenshot_pairing sampleSteps sampleAttachments sampleReadFile).1).trans
      (by decide),
    (C3_screenshot_pairing sampleSteps sampleAttachments sampleReadFile).2.1 1
      samplePassStep (by decide) (by decide),
    (C3_screenshot_pairing sampleSteps sampleAttachments sampleReadFile).2.2⟩

set_option maxHeartbeats 1000000 in
/-- C7: for every test location, root directory and base-folder override
(with an absolute `process.cwd()`), the derived folderPath and fileName
contain no parent-directory (`..`) segments — when the computed relative
path escapes the base the leading parent segments are stripped — and a
file sitting directly in the base folder yields folderPath equal to the
empty string (not `.`) and fileName equal to its name. -/
theorem C7_derivePaths_no_parent_segs :
    ∀ (cwd locationFile title : String) (parents : List SuiteNode)
      (testsFolder rootDir : String),
      strStartsWith cwd "/" = true →
      (".." ∉ strSplitOnChar '/'
          (derivePaths cwd locationFile title parents testsFolder
            rootDir).folderPath ∧
        ".." ∉ strSplitOnChar '/'
          (derivePaths cwd locationFile title parents testsFolder
            rootDir).fileName) ∧
      (∀ name : String, strStartsWith rootDir "/" = true → cleanSeg name →
        (derivePaths cwd (rootDir ++ "/" ++ name) title parents
          "" rootDir).folderPath = "" ∧
        (derivePaths cwd (rootDir ++ "/" ++ name) title parents
          "" rootDir).fileName = name) := by
  intro cwd file title parents tf rd hcwd
  constructor
  · have h := derivePaths_via_relAfterStrip cwd file title parents tf rd
    simp only [h]
    exact noParent_of_relFinal _ (relAfterStrip_structure cwd _ _ hcwd)
  · intro name hroot hname
    exact derivePaths_direct_file cwd rd name title parents hroot hname

set_option maxHeartbeats 1000000 in
/-- C7 witness on concrete data: with rootDir `/proj` and base folder
`tests`, a file that escapes the base yields `..`-free output, and a file
directly in the base folder yields folderPath `""`. -/
theorem C7_derivePaths_no_parent_segs_witness :
    (".." ∉ strSplitOnChar '/'
        (derivePaths "/home" "/proj/a.spec.ts" "t" [] "tests"
          "/proj").folderPath ∧
      ".." ∉ strSplitOnChar '/'
        (derivePaths "/home" "/proj/a.spec.ts" "t" [] "tests"
          "/proj").fileName) ∧
    (derivePaths "/home" ("/proj" ++ "/" ++ "checkout.spec.ts") "t" [] ""
      "/proj").folderPath = "" ∧
    (derivePaths "/home" ("/proj" ++ "/" ++ "checkout.spec.ts") "t" [] ""
      "/proj").fileName = "checkout.spec.ts" :=
  ⟨(C7_derivePaths_no_parent_segs "/home" "/proj/a.spec.ts" "t" [] "tests"
      "/proj" (by decide)).1,
    (C7_derivePaths_no_parent_segs "/home" "/proj/a.spec.ts" "t" [] "tests"
      "/proj" (by decide)).2 "checkout.spec.ts" (by decide)
      ⟨by decide, by decide, by decide, by decide⟩⟩

theorem mapLookup_mapDelete {V : Type} (m : List (String × V)) (k : String) :
    mapLookup (mapDelete m k) k = none := by
  unfold mapLookup mapDelete
  induction m with
  | nil => rfl
  | cons p rest ih =>
    rw [List.filter_cons]
    by_cases hp : p.1 = k
    · simp only [hp, not_true_eq_false, decide_False, Bool.false_eq_true,
        if_false]
      exact ih
    · simp only [hp, not_false_eq_true, decide_True, if_true]
      rw [List.find?_cons_of_neg]
      · exact ih
      · simp [hp]

theorem applyEvent_disabled (cwd : String)
    (readFile : String → Option String) (st : ReporterState)
    (h : st.isEnabled = false) (e : LifecycleEvent) :
    applyEvent cwd readFile st e = (st, none) := by
  cases e with
  | testBegin testId retry now => simp [applyEvent, onTestBegin, h]
  | stepEnd testId retry step now => simp [applyEvent, onStepEnd, h]
  | testEnd input sendOk now => simp [applyEvent, onTestEnd, h]

theorem runEvents_disabled (cwd : String)
    (readFile : String → Option String) :
    ∀ (events : List LifecycleEvent) (st : ReporterState),
      st.isEnabled = false → runEvents cwd readFile st events = (st, []) := by
  intro events
  induction events with
  | nil => intro st _; rfl
  | cons e rest ih =>
    intro st h
    simp only [runEvents, applyEvent_disabled cwd readFile st h e, ih st h,
      List.nil_append]

/-- C4: whenever the reporter is enabled (which in every real run implies
the api client is set — `onBegin` establishes both together) and an
execution state exists for the attempt key, `onTestEnd` removes that
key's state, in every outcome: non-final retry discarded, transmission
succeeded, or transmission failed (`sendOk` is arbitrary). -/
theorem C4_onTestEnd_removes_state :
    ∀ (st : ReporterState) (input : TestEndInput) (cwd : String)
      (readFile : String → Option String) (sendOk : Bool) (now : Nat)
      (e : TestExecutionState),
      st.isEnabled = true → st.hasApiClient = true →
      mapLookup st.testExecutions (getTestKey input.testId input.retry) =
        some e →
      mapLookup
        ((onTestEnd st input cwd readFile sendOk now).1.testExecutions)
        (getTestKey input.testId input.retry) = none := by
  intro st input cwd readFile sendOk now e h1 h2 h3
  unfold onTestEnd
  rw [if_neg (by rw [h1]; simp)]
  rw [if_neg (by rw [h2]; simp)]
  simp only [h3]
  split
  · exact mapLookup_mapDelete st.testExecutions _
  · exact mapLookup_mapDelete st.testExecutions _

/-- C4 witness: a concrete enabled state tracking attempt `t1_attempt_0`;
after `onTestEnd` the key is gone (here via the non-final-retry branch). -/
theorem C4_onTestEnd_removes_state_witness :
    mapLookup ((onTestEnd sampleEnabledState sampleTestEndInput "/home"
        sampleReadFile false 99).1.testExecutions)
      (getTestKey "t1" 0) = none :=
  C4_onTestEnd_removes_state sampleEnabledState sampleTestEndInput "/home"
    sampleReadFile false 99 sampleExecutionState rfl rfl (by decide)

/-- C8: a missing credential pair (api key or project id unset or empty)
at run start leaves the reporter permanently disabled: every subsequent
lifecycle event leaves the state unchanged and no transmission to the
transport client ever occurs during the run. -/
theorem C8_missing_credentials_disable_run :
    ∀ (env : String → Option String) (options : TestChimpReporterOptions)
      (rootDir : String) (suite : SuiteTree) (batchId cwd : String)
      (readFile : String → Option String) (events : List LifecycleEvent),
      (optTruthy (getEnvVar env "TESTCHIMP_API_KEY"
          (some options.apiKey)) = false ∨
        optTruthy (getEnvVar env "TESTCHIMP_PROJECT_ID"
          (some options.projectId)) = false) →
      (onBegin env options rootDir suite batchId).isEnabled = false ∧
      (runEvents cwd readFile (onBegin env options rootDir suite batchId)
        events).1 = onBegin env options rootDir suite batchId ∧
      (runEvents cwd readFile (onBegin env options rootDir suite batchId)
        events).2 = [] := by
  intro env options rootDir suite batchId cwd readFile events hcred
  have hdis : (onBegin env options rootDir suite batchId).isEnabled =
      false := by
    simp only [onBegin]
    rw [if_pos hcred]
  refine ⟨hdis, ?_, ?_⟩
  · rw [runEvents_disabled cwd readFile events _ hdis]
  · rw [runEvents_disabled cwd readFile events _ hdis]

/-- C8 witness: no api key configured and none in the environment — the
run is disabled, a begin/step/end sequence leaves the state unchanged,
and no transmission occurs. -/
theorem C8_missing_credentials_disable_run_witness :
    (onBegin sampleEmptyEnv sampleNoKeyOptions "/proj" sampleSuite
      "b1").isEnabled = false ∧
    (runEvents "/home" sampleReadFile
      (onBegin sampleEmptyEnv sampleNoKeyOptions "/proj" sampleSuite "b1")
      sampleLifecycle).1 =
      onBegin sampleEmptyEnv sampleNoKeyOptions "/proj" sampleSuite "b1" ∧
    (runEvents "/home" sampleReadFile
      (onBegin sampleEmptyEnv sampleNoKeyOptions "/proj" sampleSuite "b1")
      sampleLifecycle).2 = [] :=
  C8_missing_credentials_disable_run sampleEmptyEnv sampleNoKeyOptions
    "/proj" sampleSuite "b1" "/home" sampleReadFile sampleLifecycle
    (Or.inl rfl)

/-- C6: the status mapping is total and maps `passed` to COMPLETED,
`failed` and `timedOut` to FAILED, and `skipped`, `interrupted` and every
other string to UNKNOWN. -/
theorem C6_mapStatus_total :
    mapStatus "passed" = .SMART_TEST_EXECUTION_COMPLETED ∧
    mapStatus "failed" = .SMART_TEST_EXECUTION_FAILED ∧
    mapStatus "timedOut" = .SMART_TEST_EXECUTION_FAILED ∧
    mapStatus "skipped" = .UNKNOWN_SMART_TEST_EXECUTION_STATUS ∧
    mapStatus "interrupted" = .UNKNOWN_SMART_TEST_EXECUTION_STATUS ∧
    ∀ s : String, s ≠ "passed" → s ≠ "failed" → s ≠ "timedOut" →
      mapStatus s = .UNKNOWN_SMART_TEST_EXECUTION_STATUS := by
  refine ⟨rfl, rfl, rfl, rfl, rfl, ?_⟩
  intro s h1 h2 h3
  simp [mapStatus, h1, h2, h3]

/-- C6 witness: an unrecognized status maps to UNKNOWN. -/
theorem C6_mapStatus_total_witness :
    mapStatus "flaky" = .UNKNOWN_SMART_TEST_EXECUTION_STATUS :=
  C6_mapStatus_total.2.2.2.2.2 "flaky" (by decide) (by decide) (by decide)

theorem uint32_le_iff (a b : UInt32) : a ≤ b ↔ a.toNat ≤ b.toNat := Iff.rfl

theorem char_isUpper_iff (c : Char) :
    c.isUpper = true ↔ 65 ≤ c.toNat ∧ c.toNat ≤ 90 := by
  simp only [Char.isUpper, Bool.and_eq_true, decide_eq_true_eq, ge_iff_le]
  rw [uint32_le_iff, uint32_le_iff]
  rfl

theorem char_isLower_iff (c : Char) :
    c.isLower = true ↔ 97 ≤ c.toNat ∧ c.toNat ≤ 122 := by
  simp only [Char.isLower, Bool.and_eq_true, decide_eq_true_eq, ge_iff_le]
  rw [uint32_le_iff, uint32_le_iff]
  rfl

theorem toNat_ofNat_valid (n : Nat) (h : n.isValidChar) :
    (Char.ofNat n).toNat = n := by
  unfold Char.ofNat
  rw [dif_pos h]
  rfl

theorem char_toLower_upper (c : Char) (h : c.isUpper = true) :
    c.toLower = Char.ofNat (c.toNat + 32) := by
  obtain ⟨h1, h2⟩ := (char_isUpper_iff c).mp h
  unfold Char.toLower
  rw [if_pos ⟨h1, h2⟩]

theorem char_toLower_isLower (c : Char) (h : c.isUpper = true) :
    (c.toLower).isLower = true := by
  obtain ⟨h1, h2⟩ := (char_isUpper_iff c).mp h
  rw [char_toLower_upper c h, char_isLower_iff,
    toNat_ofNat_valid (c.toNat + 32) (Or.inl (by omega))]
  omega

theorem char_toUpper_toLower (c : Char) (h : c.isUpper = true) :
    (c.toLower).toUpper = c := by
  obtain ⟨h1, h2⟩ := (char_isUpper_iff c).mp h
  rw [char_toLower_upper c h]
  unfold Char.toUpper
  have hn : (Char.ofNat (c.toNat + 32)).toNat = c.toNat + 32 :=
    toNat_ofNat_valid (c.toNat + 32) (Or.inl (by omega))
  simp only [hn]
  rw [if_pos (by omega)]
  have h3 : c.toNat + 32 - 32 = c.toNat := by omega
  rw [h3, Char.ofNat_toNat]

theorem camelChars_snakeChars (cs : List Char) (h : '_' ∉ cs) :
    camelChars (snakeChars cs) = cs := by
  induction cs with
  | nil => simp [snakeChars, camelChars]
  | cons c rest ih =>
    have hc : c ≠ '_' := fun he => h (he ▸ List.mem_cons_self c rest)
    have hrest : '_' ∉ rest := fun hm => h (List.mem_cons_of_mem c hm)
    by_cases hu : c.isUpper = true
    · have e1 : snakeChars (c :: rest) = '_' :: c.toLower :: snakeChars rest := by
        simp [snakeChars, hu]
      have e2 : camelChars ('_' :: c.toLower :: snakeChars rest) =
          (c.toLower).toUpper :: camelChars (snakeChars rest) := by
        rw [camelChars.eq_def]
        simp [char_toLower_isLower c hu]
      rw [e1, e2, char_toUpper_toLower c hu, ih hrest]
    · have hu' : c.isUpper = false := by
        cases hb : c.isUpper
        · rfl
        · exact absurd hb hu
      have e1 : snakeChars (c :: rest) = c :: snakeChars rest := by
        simp [snakeChars, hu']
      have e2 : camelChars (c :: snakeChars rest) =
          c :: camelChars (snakeChars rest) := by
        rw [camelChars.eq_def]
        simp [hc]
      rw [e1, e2, ih hrest]

theorem camelKey_snakeKey (k : String) (h : '_' ∉ k.data) :
    camelKey (snakeKey k) = k := by
  unfold camelKey snakeKey
  rw [show (String.mk (snakeChars k.data)).data = snakeChars k.data from rfl]
  rw [camelChars_snakeChars k.data h]

/-- C9: for every JSON-like value whose object keys, at every nesting
level, contain no underscores, converting keys to snake_case and back to
camelCase is the identity: `toCamelCase (toSnakeCase v) = v`. -/
theorem C9_snake_camel_roundtrip :
    ∀ v : Json, noUnderscoreKeys v = true →
      toCamelCase (toSnakeCase v) = v := by
  intro v
  refine @Json.rec
    (fun v => noUnderscoreKeys v = true → toCamelCase (toSnakeCase v) = v)
    (fun xs => noUnderscoreKeysList xs = true →
      toCamelCaseList (toSnakeCaseList xs) = xs)
    (fun fs => noUnderscoreKeysFields fs = true →
      toCamelCaseFields (toSnakeCaseFields fs) = fs)
    (fun p => noUnderscoreKeys p.2 = true →
      toCamelCase (toSnakeCase p.2) = p.2)
    ?_ ?_ ?_ ?_ ?_ ?_ ?_ ?_ ?_ ?_ ?_ v
  · intro _; rfl
  · intro b _; rfl
  · intro n _; rfl
  · intro s _; rfl
  · intro elems ih h
    have h' : noUnderscoreKeysList elems = true := by
      simpa [noUnderscoreKeys] using h
    show Json.arr (toCamelCaseList (toSnakeCaseList elems)) = Json.arr elems
    rw [ih h']
  · intro fields ih h
    have h' : noUnderscoreKeysFields fields = true := by
      simpa [noUnderscoreKeys] using h
    show Json.obj (toCamelCaseFields (toSnakeCaseFields fields)) =
      Json.obj fields
    rw [ih h']
  · intro _; rfl
  · intro hd tl ihhd ihtl h
    have hh : noUnderscoreKeys hd = true ∧ noUnderscoreKeysList tl = true := by
      simpa [noUnderscoreKeysList, Bool.and_eq_true] using h
    show toCamelCase (toSnakeCase hd) :: toCamelCaseList (toSnakeCaseList tl) =
      hd :: tl
    rw [ihhd hh.1, ihtl hh.2]
  · intro _; rfl
  · intro hd tl ihhd ihtl h
    obtain ⟨k, v⟩ := hd
    have hh : (('_' ∉ k.data) ∧ noUnderscoreKeys v = true) ∧
        noUnderscoreKeysFields tl = true := by
      simpa [noUnderscoreKeysFields, Bool.and_eq_true] using h
    show (camelKey (snakeKey k), toCamelCase (toSnakeCase v)) ::
        toCamelCaseFields (toSnakeCaseFields tl) = (k, v) :: tl
    rw [camelKey_snakeKey k hh.1.1, ihhd hh.1.2, ihtl hh.2]
  · intro k v ihv h
    exact ihv h

/-- C9 witness: a concrete camelCase report-like value survives the
snake_case/camelCase round trip. -/
theorem C9_snake_camel_roundtrip_witness :
    toCamelCase (toSnakeCase sampleJson) = sampleJson :=
  C9_snake_camel_roundtrip sampleJson (by decide)

/-- C10: `getEnvVar` falls back to the default when the variable is
unset and also when it is set to the empty string; consequently, at the
configuration surface of `onBegin`, an environment variable set to the
empty string never overrides an explicitly configured option value. -/
theorem C10_getEnvVar_empty_falls_back :
    ∀ (env : String → Option String) (name : String)
      (defaultValue : Option String) (options : TestChimpReporterOptions),
      (env name = none → getEnvVar env name defaultValue = defaultValue) ∧
      (env name = some "" → getEnvVar env name defaultValue = defaultValue) ∧
      (env "TESTCHIMP_API_KEY" = some "" →
        resolvedApiKey env options = some options.apiKey) ∧
      (env "TESTCHIMP_PROJECT_ID" = some "" →
        resolvedProjectId env options = some options.projectId) := by
  intro env name d options
  refine ⟨?_, ?_, ?_, ?_⟩
  · intro h; simp [getEnvVar, h]
  · intro h; simp [getEnvVar, h]
  · intro h; simp [resolvedApiKey, getEnvVar, h]
  · intro h; simp [resolvedProjectId, getEnvVar, h]

/-- C10 witness: with `TESTCHIMP_API_KEY` set to the empty string, the
configured option value wins. -/
theorem C10_getEnvVar_empty_falls_back_witness :
    resolvedApiKey sampleEnv sampleOptions = some "configured-key" :=
  (C10_getEnvVar_empty_falls_back sampleEnv "X" none sampleOptions).2.2.1 rfl

end TestChimp
